import Mathlib

/-! Hamming-Code: a shallow embedding of the SECDED encoder and decoder.

The development follows `src/include/utils.hpp`, `src/include/maybe.hpp` and
`src/src/hamming.cpp`.

* A `boost::dynamic_bitset<>` is a `List Bool`; index 0 is the head of the list.
* An access that violates a precondition of the bitset (`test`, `flip`, `operator[]`
  at a position that is not below `size()`, `operator^` on different sizes) or that
  is undefined behaviour of the language is the fault `Option.none`.
* Loops `for (i = 0; i < n; i++)` are folds over `List.range n` in the `Option` monad.
* Machine integers are natural numbers, reduced modulo the width of the C++ type at
  the places where the source narrows them.
-/

set_option autoImplicit false
set_option maxRecDepth 100000

/-! ## `boost::dynamic_bitset<>` -/

namespace dynamic_bitset

/-- The member `test(pos)` and the const `operator[]`: the bit at `pos`, which
must be below `size()`. -/
def test (b : List Bool) (pos : Nat) : Option Bool := b[pos]?

/-- The member `flip(pos)`: toggles the bit at `pos`, which must be below `size()`. -/
def flip (b : List Bool) (pos : Nat) : Option (List Bool) :=
  match b[pos]? with
  | some v => some (b.set pos (!v))
  | Option.none => Option.none

/-- The assignment `b[pos] = v` through the non-const `operator[]`; `pos` must be
below `size()`. -/
def assign (b : List Bool) (pos : Nat) (v : Bool) : Option (List Bool) :=
  if pos < b.length then some (b.set pos v) else Option.none

/-- The member `count()`: the number of set bits. -/
def count (b : List Bool) : Nat := b.count true

/-- The member `none()`: true when no bit is set. -/
def none (b : List Bool) : Bool := b.all (fun x => !x)

/-- The value of the bits read as an unsigned number, bit 0 least significant. -/
def value : List Bool → Nat
  | [] => 0
  | x :: xs => x.toNat + 2 * value xs

/-- The member `to_ulong()`: it throws when the value does not fit in 64 bits. -/
def to_ulong (b : List Bool) : Option Nat :=
  if value b < 2 ^ 64 then some (value b) else Option.none

/-- The operator `a ^ b`, bitwise exclusive or of two bitsets of the same size. -/
def xor (a b : List Bool) : Option (List Bool) :=
  if a.length = b.length then some (List.zipWith Bool.xor a b) else Option.none

end dynamic_bitset

/-! ## `maybe.hpp` -/

/-- The class `Maybe<T>`: a value and an error string; it holds a value exactly when
the error string is empty. -/
structure Maybe (T : Type) where
  value_ : T
  error_ : String
deriving DecidableEq

namespace Maybe

/-- The constructor `Maybe(T value)` and the static member `some(value)`. -/
def some {T : Type} (value : T) : Maybe T := ⟨value, ""⟩

/-- The constructor `Maybe(std::string error)` and the static member `error(error)`;
the value is value-initialised. -/
def error {T : Type} [Inhabited T] (error : String) : Maybe T := ⟨default, error⟩

/-- The member `is_some()`. -/
def is_some {T : Type} (m : Maybe T) : Bool := m.error_.isEmpty

/-- The member `is_error()`. -/
def is_error {T : Type} (m : Maybe T) : Bool := !m.error_.isEmpty

end Maybe

/-! ## `utils.hpp` -/

namespace utils.bit

/-- `isPowerOfTwo(x)` is `x && (!(x & (x - 1)))`. -/
def isPowerOfTwo (x : Nat) : Bool := x != 0 && (x &&& (x - 1)) == 0

/-- `findMinBytes(N)` is `const uint8_t res = N / 8; return res % 8 == 0 ? res : res + 1;`
with the result a `uint8_t`. -/
def findMinBytes (N : Nat) : Nat :=
  if (N / 8) % 256 % 8 = 0 then (N / 8) % 256 else ((N / 8) % 256 + 1) % 256

/-- `concat(a, b)`: `b` when `a.none()`; otherwise a bitset of `a.size() + b.size()`
zero bits into which the first loop copies `a[i]` to `result[i]` and the second loop
copies `b[i]` to `result[i + a.size()]`. -/
def concat (a b : List Bool) : Option (List Bool) :=
  if dynamic_bitset.none a then some b
  else do
    let result ← (List.range a.length).foldlM (fun (result : List Bool) i => do
        let v ← dynamic_bitset.test a i
        dynamic_bitset.assign result i v) (List.replicate (a.length + b.length) false)
    (List.range b.length).foldlM (fun (result : List Bool) i => do
        let v ← dynamic_bitset.test b i
        dynamic_bitset.assign result (i + a.length) v) result

end utils.bit

namespace utils.hamming

/-- `isNotC(x)` is `!isPowerOfTwo(x) && x != 0`. -/
def isNotC (x : Nat) : Bool := !utils.bit.isPowerOfTwo x && x != 0

/-- The loop `while (N > (1 << k) - 1) k++` of `findMinK`. The expression
`(1 << k) - 1` is computed in the 32-bit type `int`, which holds it for `k ≤ 30`; the
first argument counts the values of `k` that are left before `1 << k` leaves `int`
(undefined behaviour, the fault `none`). -/
def findMinKLoop (N : Nat) : Nat → Nat → Option Nat
  | 0, _ => none
  | left + 1, k => if N > (1 <<< k) - 1 then findMinKLoop N left (k + 1) else some k

/-- `findMinK(N)`: the loop started at `k = 0`, with the 31 shifts `1 << 0`, ...,
`1 << 30` that `int` can hold. -/
def findMinK (N : Nat) : Option Nat := findMinKLoop N 31 0

/-- `extractC(input, bufferSize)`: the bits of `input` at the power-of-two positions,
written in ascending order into a bitset of `findMinK(bufferSize)` bits. The
parameter is a `uint8_t`, and so is the counter `auxC`. -/
def extractC (input : List Bool) (bufferSize : Nat) : Option (List Bool) := do
  let K ← findMinK (bufferSize % 256)
  let r ← (List.range input.length).foldlM (fun (s : List Bool × Nat) i =>
      if utils.bit.isPowerOfTwo i then do
        let v ← dynamic_bitset.test input i
        let C ← dynamic_bitset.assign s.1 s.2 v
        pure (C, (s.2 + 1) % 256)
      else pure s) (List.replicate K false, 0)
  pure r.1

/-- `extractM(input, bufferSize)`: the bits of `input` at the positions that are
neither 0 nor a power of two, written in ascending order into a bitset of
`bufferSize` bits. The parameter is a `uint8_t`, and so is the counter `auxM`. -/
def extractM (input : List Bool) (bufferSize : Nat) : Option (List Bool) := do
  let r ← (List.range input.length).foldlM (fun (s : List Bool × Nat) i =>
      if isNotC i then do
        let v ← dynamic_bitset.test input i
        let M ← dynamic_bitset.assign s.1 s.2 v
        pure (M, (s.2 + 1) % 256)
      else pure s) (List.replicate (bufferSize % 256) false, 0)
  pure r.1

end utils.hamming

/-! ## `hamming.cpp` -/

namespace hamming

/-- `createHammingWord(value, N)`: an `N`-bit word with the bits of `value` at the
positions that are neither 0 nor a power of two. The parameter `N` is a `uint8_t`.
The counters `i` and `mx` are `int_fast8_t`, taken as the 8-bit signed type it is
with glibc: for `N > 127` the counter `i` steps from 127 to a negative value, which
is still below `N`, and the access `bits[i]` is then out of range. -/
def createHammingWord (value : List Bool) (N : Nat) : Option (List Bool) :=
  if 127 < N % 256 then none
  else do
    let r ← (List.range (N % 256)).foldlM (fun (s : List Bool × Nat) i =>
        if utils.hamming.isNotC i then do
          let v ← dynamic_bitset.test value s.2
          let bits ← dynamic_bitset.assign s.1 i v
          pure (bits, s.2 + 1)
        else pure s) (List.replicate (N % 256) false, 0)
    pure r.1

/-- `encode(input)`: an all-zero input is returned as it is; otherwise the word of
`N = findMinK(input.size()) + input.size() + 1` bits (a `uint16_t`) is created, every
power-of-two position `i` is flipped once for each `j` in `[0, N)` with
`i != j && i & j && bits.test(j)`, and bit 0 becomes `bits.count() % 2`. -/
def encode (input : List Bool) : Option (List Bool) :=
  if dynamic_bitset.none input then some input
  else do
    let K ← utils.hamming.findMinK input.length
    let N := (K + input.length + 1) % 65536
    let bits ← createHammingWord input N
    let bits ← (List.range N).foldlM (fun (bits : List Bool) i =>
        if !utils.bit.isPowerOfTwo i then pure bits
        else (List.range N).foldlM (fun (bits : List Bool) j =>
            if i != j && (i &&& j) != 0 then do
              let t ← dynamic_bitset.test bits j
              if t then dynamic_bitset.flip bits i else pure bits
            else pure bits) bits) bits
    dynamic_bitset.assign bits 0 (dynamic_bitset.count bits % 2 == 1)

/-- The first error of `decode`. -/
def errIndex : String :=
  "The word is corrupted and cannot be recovered. (Trying to access index greater than input)"

/-- The second error of `decode`. -/
def errG : String :=
  "The word is corrupted and cannot be recovered. (G did not match)"

/-- The first part of `decode`, after the test of `input.none()`: `K`, `N`, the
received check bits `originalC`, the recomputed check bits `primeC` and the value
`indexToReplace.to_ulong()` of `primeC ^ originalC`. `bufferSize` and `K` are
`uint8_t`, `N` is a `uint16_t`, and the counter `currentC` is a `uint8_t`; the state
of the outer loop is the pair of `primeC` and `currentC`. -/
def syndrome (input : List Bool) (bufferSize : Nat) : Option Nat := do
  let K ← utils.hamming.findMinK (bufferSize % 256)
  let N := (K + bufferSize % 256 + 1) % 65536
  let originalC ← utils.hamming.extractC input bufferSize
  let r ← (List.range N).foldlM (fun (s : List Bool × Nat) i =>
      if !utils.bit.isPowerOfTwo i then pure s
      else do
        let primeC ← (List.range N).foldlM (fun (primeC : List Bool) j =>
            if i != j && (i &&& j) != 0 then do
              let t ← dynamic_bitset.test input j
              if t then dynamic_bitset.flip primeC s.2 else pure primeC
            else pure primeC) s.1
        pure (primeC, (s.2 + 1) % 256)) (List.replicate K false, 0)
  let indexToReplace ← dynamic_bitset.xor r.1 originalC
  dynamic_bitset.to_ulong indexToReplace

/-- The correction step of `decode`:
`if (index > 0 && index < input.size()) input.flip(index)`. -/
def correct (input : List Bool) (index : Nat) : Option (List Bool) :=
  if index > 0 && index < input.length then dynamic_bitset.flip input index
  else some input

/-- The value of `primeG` that `decode` compares with `input[0]`:
`input.count() % 2`, negated when `input.test(0)`. -/
def primeG (input : List Bool) : Option Nat := do
  let g ← dynamic_bitset.test input 0
  let c := dynamic_bitset.count input % 2
  pure (if g then (if c = 0 then 1 else 0) else c)

/-- `decode(input, bufferSize)`: an all-zero input is returned as it is; otherwise
the syndrome is computed, a syndrome above `input.size()` is the first error, a
syndrome in `(0, input.size())` flips that bit, a `primeG` that differs from bit 0
is the second error, and the result is `extractM` of the corrected word. -/
def decode (input : List Bool) (bufferSize : Nat) : Option (Maybe (List Bool)) :=
  if dynamic_bitset.none input then some (Maybe.some input)
  else do
    let index ← syndrome input bufferSize
    if index > input.length then pure (Maybe.error errIndex)
    else do
      let input ← correct input index
      let pG ← primeG input
      let g ← dynamic_bitset.test input 0
      if pG != g.toNat then pure (Maybe.error errG)
      else do
        let recoveredWord ← utils.hamming.extractM input bufferSize
        pure (Maybe.some recoveredWord)

end hamming

/-! ## Definitions used to state and prove the properties -/

/-- Exclusive or of `f j` over the positions `j` of a list. -/
def par (J : List Nat) (f : Nat → Bool) : Bool :=
  J.foldr (fun j a => Bool.xor (f j) a) false

/-- Membership of `j` in the parity group of `i`: `i != j && i & j`. -/
def inGroup (i j : Nat) : Bool := i != j && (i &&& j) != 0

/-- Writing the bits `vs` at the positions `L`, in order. -/
def place : List Nat → List Bool → List Bool → List Bool
  | i :: L, v :: vs, b => place L vs (b.set i v)
  | _, _, b => b

/-- Exclusive or of all bits of a word. -/
def xorAll (b : List Bool) : Bool := b.foldr Bool.xor false

/-- The positions below `N` that hold message bits. -/
def mpos (N : Nat) : List Nat := (List.range N).filter utils.hamming.isNotC

/-- The positions below `N` that hold check bits. -/
def cpos (N : Nat) : List Nat := (List.range N).filter utils.bit.isPowerOfTwo

/-- The parity of the group of the check position `i` in the word `b`: the exclusive
or of the bits `b[j]` over `j` in `[0, N)` with `i != j` and `i & j` non-zero. -/
def groupParity (N i : Nat) (b : List Bool) : Bool :=
  par (List.range N) (fun j => inGroup i j && b.getD j false)

/-- The check-bit loop of `encode` over the positions `L`, as a function: each
position is flipped when the parity of its group is odd. -/
def fill (N : Nat) : List Nat → List Bool → List Bool
  | [], b => b
  | i :: L, b => fill N L (b.set i (Bool.xor (b.getD i false) (groupParity N i b)))

/-- The word that `encode` builds for a message with a set bit: the message bits
placed, the check bits filled in, and bit 0 set to the parity of the count. -/
def codeword (N : Nat) (m : List Bool) : List Bool :=
  (fill N (cpos N) (place (mpos N) m (List.replicate N false))).set 0
    (dynamic_bitset.count (fill N (cpos N) (place (mpos N) m (List.replicate N false))) % 2 == 1)

/-- Bit `c` of the syndrome of a word: the exclusive or of the bits at the positions
`j` in `[0, N)` whose binary digit `c` is set. -/
def chk (N c : Nat) (b : List Bool) : Bool :=
  par (List.range N) (fun j => j.testBit c && b.getD j false)

/-- The word `b` with the bit at `p` toggled: the result of `flip(p)` for `p` below
the size. -/
def flipped (b : List Bool) (p : Nat) : List Bool := b.set p (!b.getD p false)

/-- The computation of `encode` with the check positions processed in the order of
the list `order` instead of ascending order: the outer loop of `encode` visits the
positions of `order`, everything else is as in `encode`. -/
def encodeInOrder (order : List Nat) (input : List Bool) : Option (List Bool) :=
  if dynamic_bitset.none input then some input
  else do
    let K ← utils.hamming.findMinK input.length
    let N := (K + input.length + 1) % 65536
    let bits ← hamming.createHammingWord input N
    let bits ← order.foldlM (fun (bits : List Bool) i =>
        (List.range N).foldlM (fun (bits : List Bool) j =>
            if i != j && (i &&& j) != 0 then do
              let t ← dynamic_bitset.test bits j
              if t then dynamic_bitset.flip bits i else pure bits
            else pure bits) bits) bits
    dynamic_bitset.assign bits 0 (dynamic_bitset.count bits % 2 == 1)

/-- The byte `0b00001111` as an 8-bit bitset, bit 0 first. -/
def m0F : List Bool := [true, true, true, true, false, false, false, false]

/-- The codeword of `0b00001111` with the bits at the positions 1 and 12 flipped. -/
def w0F_1_12 : List Bool :=
  [true, false, true, true, true, true, true, true, false, false, false, false, true]

/-- A message of 247 bits whose only set bit is bit 0. -/
def msg247 : List Bool := true :: List.replicate 246 false

/-- The message of 247 set bits. -/
def ones247 : List Bool := List.replicate 247 true

/-- The message of 300 set bits. -/
def ones300 : List Bool := List.replicate 300 true

/-- A message of 247 bits whose only set bit is the last one. -/
def last247 : List Bool := List.replicate 246 false ++ [true]

/-- A word of 310 bits whose only set bit is bit 0. -/
def word310 : List Bool := true :: List.replicate 309 false

/-- The pairs of positions below 13 whose exclusive or is 13. -/
def pairs13 : List (Nat × Nat) := [(1, 12), (4, 9), (5, 8), (6, 11), (7, 10)]

/-! ## Loops as folds over the positions they visit -/

theorem foldlM_guard {σ α : Type} (p : α → Bool) (g : σ → α → Option σ) (l : List α) (s : σ) :
    l.foldlM (fun x y => if p y then g x y else pure x) s = (l.filter p).foldlM g s := by
  induction l generalizing s with
  | nil => rfl
  | cons a l ih =>
    by_cases h : p a
    · simp only [List.foldlM_cons, List.filter_cons, h, if_true]
      cases g s a with
      | none => rfl
      | some s' => simpa using ih s'
    · simp only [List.foldlM_cons, List.filter_cons, h]
      simpa using ih s

theorem foldlM_guard_not {σ α : Type} (p : α → Bool) (g : σ → α → Option σ) (l : List α) (s : σ) :
    l.foldlM (fun x y => if !p y then pure x else g x y) s = (l.filter p).foldlM g s := by
  rw [← foldlM_guard]
  congr 1
  funext x y
  cases p y <;> simp

theorem test_eq_getD (b : List Bool) (j : Nat) (h : j < b.length) :
    dynamic_bitset.test b j = some (b.getD j false) := by
  simp [dynamic_bitset.test, List.getD, List.getElem?_eq_getElem h]

theorem flip_eq_set (b : List Bool) (j : Nat) (h : j < b.length) :
    dynamic_bitset.flip b j = some (b.set j (!b.getD j false)) := by
  simp [dynamic_bitset.flip, List.getD, List.getElem?_eq_getElem h]

theorem flipLoop (J : List Nat) (cond : Nat → Bool) (rd : List Bool → Nat → Option Bool)
    (f : Nat → Bool) (b : List Bool) (c : Nat) (hc : c < b.length)
    (hrd : ∀ x j, j ∈ J → cond j = true → rd (b.set c x) j = some (f j)) (x : Bool) :
    J.foldlM (fun (acc : List Bool) j =>
      if cond j then do
        let t ← rd acc j
        if t then dynamic_bitset.flip acc c else pure acc
      else pure acc) (b.set c x)
    = some (b.set c (Bool.xor x (par J (fun j => cond j && f j)))) := by
  induction J generalizing x with
  | nil => simp [par]
  | cons j J ih =>
    have ih' := fun x => ih (fun x j hj => hrd x j (List.mem_cons_of_mem _ hj)) x
    simp only [List.foldlM_cons]
    by_cases hj : cond j = true
    · rw [if_pos hj, hrd x j (List.mem_cons_self _ _) hj]
      cases hf : f j
      · simp only [Option.some_bind, Option.bind_eq_bind, Bool.false_eq_true, if_false]
        have := ih' x
        simp only [Option.pure_def, Option.bind_eq_bind, Option.some_bind] at this ⊢
        rw [this]
        simp [par, hj, hf]
      · simp only [Option.some_bind, Option.bind_eq_bind, if_true]
        rw [flip_eq_set _ _ (by simpa using hc)]
        simp only [Option.some_bind, List.set_set]
        have h1 : (b.set c x).getD c false = x := by
          simp [List.getD, List.getElem?_set, hc]
        have := ih' (!x)
        simp only [Option.pure_def, Option.bind_eq_bind, Option.some_bind] at this ⊢
        rw [h1, this]
        simp [par, hj, hf]
    · rw [if_neg hj]
      have := ih' x
      simp only [Option.pure_def, Option.bind_eq_bind, Option.some_bind] at this ⊢
      rw [this]
      simp [par, hj]

theorem assign_eq_set (b : List Bool) (j : Nat) (v : Bool) (h : j < b.length) :
    dynamic_bitset.assign b j v = some (b.set j v) := by
  simp [dynamic_bitset.assign, h]

theorem extractLoop (input : List Bool) (L : List Nat) (hL : ∀ i ∈ L, i < input.length) :
    ∀ (A B : List Bool), L.length ≤ B.length → A.length + L.length ≤ 255 →
    L.foldlM (fun (s : List Bool × Nat) i => do
        let v ← dynamic_bitset.test input i
        let M ← dynamic_bitset.assign s.1 s.2 v
        pure (M, (s.2 + 1) % 256)) (A ++ B, A.length)
      = some (A ++ L.map (fun i => input.getD i false) ++ B.drop L.length,
          A.length + L.length) := by
  induction L with
  | nil => intro A B _ _; simp
  | cons i L ih =>
    intro A B hB hA
    cases B with
    | nil => simp at hB
    | cons b B =>
      simp only [List.length_cons] at hB hA
      have ih' := ih (fun i hi => hL i (List.mem_cons_of_mem _ hi)) (A ++ [input.getD i false]) B
        (by omega) (by simp; omega)
      simp only [List.foldlM_cons]
      rw [test_eq_getD _ _ (hL i (List.mem_cons_self _ _))]
      simp only [Option.some_bind, Option.bind_eq_bind]
      rw [assign_eq_set _ _ _ (by simp)]
      simp only [Option.some_bind, Option.pure_def]
      have h256 : (A.length + 1) % 256 = A.length + 1 := Nat.mod_eq_of_lt (by omega)
      rw [h256]
      have hset : (A ++ b :: B).set A.length (input.getD i false)
          = (A ++ [input.getD i false]) ++ B := by
        rw [List.set_append_right _ _ (Nat.le_refl _)]
        simp
      rw [hset]
      simp only [Option.pure_def, Option.bind_eq_bind, List.length_append, List.length_singleton] at ih'
      rw [ih']
      simp [Nat.add_assoc, Nat.add_comm 1]

theorem placeLoop (value : List Bool) (L : List Nat) :
    ∀ (b : List Bool) (c : Nat), (∀ i ∈ L, i < b.length) → c + L.length ≤ value.length →
    L.foldlM (fun (s : List Bool × Nat) i => do
        let v ← dynamic_bitset.test value s.2
        let bits ← dynamic_bitset.assign s.1 i v
        pure (bits, s.2 + 1)) (b, c) = some (place L (value.drop c) b, c + L.length) := by
  induction L with
  | nil => intro b c _ _; simp [place]
  | cons i L ih =>
    intro b c hb hc
    simp only [List.length_cons] at hc
    have hc' : c < value.length := by omega
    have ih' := ih (b.set i (value.getD c false)) (c + 1)
      (fun j hj => by simpa using hb j (List.mem_cons_of_mem _ hj)) (by omega)
    simp only [List.foldlM_cons]
    rw [test_eq_getD _ _ hc']
    simp only [Option.some_bind, Option.bind_eq_bind]
    rw [assign_eq_set _ _ _ (hb i (List.mem_cons_self _ _))]
    simp only [Option.some_bind, Option.pure_def]
    simp only [Option.pure_def, Option.bind_eq_bind] at ih'
    rw [ih', List.drop_eq_getElem_cons hc']
    simp [place, List.getD, List.getElem?_eq_getElem hc', Nat.add_assoc, Nat.add_comm 1]

theorem length_place (L : List Nat) : ∀ (vs b : List Bool), (place L vs b).length = b.length := by
  induction L with
  | nil => intro vs b; simp [place]
  | cons i L ih =>
    intro vs b
    cases vs with
    | nil => simp [place]
    | cons v vs => simp [place, ih]

theorem place_getD_of_not_mem (L : List Nat) (j : Nat) (hj : j ∉ L) :
    ∀ (vs b : List Bool), (place L vs b).getD j false = b.getD j false := by
  induction L with
  | nil => intro vs b; simp [place]
  | cons i L ih =>
    intro vs b
    have hji : i ≠ j := fun h => hj (h ▸ List.mem_cons_self _ _)
    have hjL : j ∉ L := fun h => hj (List.mem_cons_of_mem _ h)
    cases vs with
    | nil => simp [place]
    | cons v vs =>
      simp only [place]
      rw [ih hjL]
      simp [List.getD, List.getElem?_set, hji]

theorem map_place (L : List Nat) (hnd : L.Nodup) :
    ∀ (vs b : List Bool), (∀ i ∈ L, i < b.length) → L.length ≤ vs.length →
    L.map (fun i => (place L vs b).getD i false) = vs.take L.length := by
  induction L with
  | nil => intro vs b _ _; simp
  | cons i L ih =>
    intro vs b hb hlen
    cases vs with
    | nil => simp at hlen
    | cons v vs =>
      have hiL : i ∉ L := (List.nodup_cons.mp hnd).1
      have hndL : L.Nodup := (List.nodup_cons.mp hnd).2
      have hi : i < b.length := hb i (List.mem_cons_self _ _)
      simp only [place, List.map_cons, List.length_cons, List.take_succ_cons]
      rw [place_getD_of_not_mem L i hiL]
      have ih' := ih hndL vs (b.set i v) (fun j hj => by simpa using hb j (List.mem_cons_of_mem _ hj))
        (by simpa using hlen)
      rw [ih']
      simp [List.getD, List.getElem?_set, hi]

theorem two_pow_and_sub_one (c : Nat) : 2 ^ c &&& (2 ^ c - 1) = 0 := by
  apply Nat.eq_of_testBit_eq
  intro i
  simp only [Nat.testBit_and, Nat.testBit_two_pow, Nat.testBit_two_pow_sub_one, Nat.zero_testBit]
  by_cases h : c = i <;> simp [h]

theorem pow_of_and_sub_one : ∀ (x : Nat), x ≠ 0 → x &&& (x - 1) = 0 → ∃ c, x = 2 ^ c := by
  intro x
  induction x using Nat.strong_induction_on with
  | _ x ih =>
    intro hx h
    have hbits : ∀ i, ((x / 2) &&& ((x - 1) / 2)).testBit i = false := by
      intro i
      have h1 : (x &&& (x - 1)).testBit (i + 1) = false := by rw [h]; simp
      rw [Nat.testBit_and] at h1
      rw [Nat.testBit_and, Nat.testBit_div_two, Nat.testBit_div_two]
      exact h1
    rcases Nat.mod_two_eq_zero_or_one x with hpar | hpar
    · -- even
      have hy : x / 2 ≠ 0 := by omega
      have h2 : (x - 1) / 2 = x / 2 - 1 := by omega
      have hz : (x / 2) &&& (x / 2 - 1) = 0 := by
        apply Nat.eq_of_testBit_eq
        intro i
        rw [← h2, hbits i]; simp
      obtain ⟨c, hc⟩ := ih (x / 2) (by omega) hy hz
      refine ⟨c + 1, ?_⟩
      rw [Nat.pow_succ, ← hc]; omega
    · -- odd
      have h2 : (x - 1) / 2 = x / 2 := by omega
      have hz : x / 2 = 0 := by
        apply Nat.eq_of_testBit_eq
        intro i
        have := hbits i
        rw [h2] at this
        simpa using this
      exact ⟨0, by omega⟩

theorem isPowerOfTwo_iff (x : Nat) : utils.bit.isPowerOfTwo x = true ↔ ∃ c, x = 2 ^ c := by
  constructor
  · intro h
    simp only [utils.bit.isPowerOfTwo, Bool.and_eq_true, bne_iff_ne, ne_eq, beq_iff_eq] at h
    exact pow_of_and_sub_one x h.1 h.2
  · rintro ⟨c, rfl⟩
    simp only [utils.bit.isPowerOfTwo, Bool.and_eq_true, bne_iff_ne, ne_eq, beq_iff_eq]
    exact ⟨by positivity, two_pow_and_sub_one c⟩

theorem isPowerOfTwo_two_pow (c : Nat) : utils.bit.isPowerOfTwo (2 ^ c) = true :=
  (isPowerOfTwo_iff _).2 ⟨c, rfl⟩

theorem inGroup_two_pow (c j : Nat) :
    inGroup (2 ^ c) j = (decide (2 ^ c ≠ j) && j.testBit c) := by
  have h : ((2 ^ c &&& j) != 0) = j.testBit c := by
    rw [Nat.two_pow_and]
    cases j.testBit c <;> simp
  simp only [inGroup, h]
  by_cases h2 : 2 ^ c = j <;> simp [h2]

theorem checkPositions (N : Nat) :
    (List.range N).filter utils.bit.isPowerOfTwo = (List.range (Nat.clog 2 N)).map (2 ^ ·) := by
  apply List.eq_of_perm_of_sorted (r := (· < ·))
  · rw [List.perm_ext_iff_of_nodup ((List.nodup_range N).filter _)]
    · intro x
      simp only [List.mem_filter, List.mem_range, List.mem_map, isPowerOfTwo_iff]
      constructor
      · rintro ⟨hx, c, rfl⟩
        refine ⟨c, ?_, rfl⟩
        by_contra hc
        have := (Nat.le_pow_iff_clog_le (by omega : 1 < 2)).2 (Nat.le_of_not_lt hc)
        omega
      · rintro ⟨c, hc, rfl⟩
        refine ⟨?_, c, rfl⟩
        by_contra hN
        have := (Nat.le_pow_iff_clog_le (by omega : 1 < 2)).1 (Nat.le_of_not_lt hN)
        omega
    · exact (List.nodup_range _).map (Nat.pow_right_injective (le_refl 2))
  · exact (List.sorted_lt_range N).filter _
  · exact (List.pairwise_lt_range _).map _ (fun a b h => Nat.pow_lt_pow_right (by omega) h)

theorem length_positions (N : Nat) (hN : 0 < N) :
    ((List.range N).filter utils.hamming.isNotC).length
      + ((List.range N).filter utils.bit.isPowerOfTwo).length + 1 = N := by
  induction N with
  | zero => omega
  | succ n ih =>
    rcases Nat.eq_zero_or_pos n with h0 | h0
    · subst h0; decide
    · have := ih h0
      rw [List.range_succ, List.filter_append, List.filter_append]
      simp only [List.length_append, List.filter_cons, List.filter_nil, utils.hamming.isNotC]
      have hn : (n != 0) = true := by simpa using Nat.pos_iff_ne_zero.mp h0
      cases hp : utils.bit.isPowerOfTwo n <;> simp [hn] <;> omega

theorem some_bind_eq {α β : Type} (a : α) (f : α → Option β) : (some a >>= f) = f a := rfl

theorem set_getD_self (b : List Bool) (i : Nat) : b.set i (b.getD i false) = b := by
  apply List.ext_getElem?
  intro n
  by_cases h : i = n
  · subst h
    by_cases hi : i < b.length
    · simp [List.getElem?_set, hi, List.getElem?_eq_getElem hi]
    · simp [List.getElem?_set, hi, List.getElem?_eq_none (Nat.le_of_not_lt hi)]
  · simp [List.getElem?_set, h]

theorem getD_set_ne (b : List Bool) (i j : Nat) (v : Bool) (h : i ≠ j) :
    (b.set i v).getD j false = b.getD j false := by
  simp [List.getD, List.getElem?_set, h]

theorem getD_set_self (b : List Bool) (i : Nat) (v : Bool) (h : i < b.length) :
    (b.set i v).getD i false = v := by
  simp [List.getD, List.getElem?_set, h]

theorem par_congr (J : List Nat) (f g : Nat → Bool) (h : ∀ j ∈ J, f j = g j) :
    par J f = par J g := by
  induction J with
  | nil => rfl
  | cons j J ih =>
    simp only [par, List.foldr_cons]
    rw [h j (List.mem_cons_self _ _)]
    have := ih (fun j hj => h j (List.mem_cons_of_mem _ hj))
    simp only [par] at this
    rw [this]

theorem encode_inner (N i : Nat) (bits : List Bool) (hlen : bits.length = N) (hi : i < N) :
    (List.range N).foldlM (fun (bits : List Bool) j =>
        if i != j && (i &&& j) != 0 then do
          let t ← dynamic_bitset.test bits j
          if t then dynamic_bitset.flip bits i else pure bits
        else pure bits) bits
      = some (bits.set i (Bool.xor (bits.getD i false) (groupParity N i bits))) := by
  have hrd : ∀ (x : Bool) (j : Nat), j ∈ List.range N → inGroup i j = true →
      dynamic_bitset.test (bits.set i x) j = some (bits.getD j false) := by
    intro x j hj hg
    have hne : i ≠ j := by
      simp only [inGroup, Bool.and_eq_true, bne_iff_ne] at hg
      exact hg.1
    rw [test_eq_getD _ _ (by simpa [hlen] using hj), getD_set_ne _ _ _ _ hne]
  have h := flipLoop (List.range N) (inGroup i) dynamic_bitset.test
    (fun j => bits.getD j false) bits i (by omega) hrd (bits.getD i false)
  rw [set_getD_self] at h
  exact h

theorem encode_outer (N : Nat) (L : List Nat) (hL : ∀ i ∈ L, i < N) :
    ∀ (bits : List Bool), bits.length = N →
    L.foldlM (fun (bits : List Bool) i =>
      (List.range N).foldlM (fun (bits : List Bool) j =>
        if i != j && (i &&& j) != 0 then do
          let t ← dynamic_bitset.test bits j
          if t then dynamic_bitset.flip bits i else pure bits
        else pure bits) bits) bits = some (fill N L bits) := by
  induction L with
  | nil => intro bits _; rfl
  | cons i L ih =>
    intro bits hlen
    simp only [List.foldlM_cons]
    rw [encode_inner N i bits hlen (hL i (List.mem_cons_self _ _)), some_bind_eq]
    rw [ih (fun j hj => hL j (List.mem_cons_of_mem _ hj)) _ (by simpa using hlen)]
    rfl

theorem length_fill (N : Nat) (L : List Nat) : ∀ (b : List Bool), (fill N L b).length = b.length := by
  induction L with
  | nil => intro b; rfl
  | cons i L ih => intro b; simp [fill, ih]

theorem fill_getD_of_not_mem (N : Nat) (L : List Nat) (j : Nat) (hj : j ∉ L) :
    ∀ (b : List Bool), (fill N L b).getD j false = b.getD j false := by
  induction L with
  | nil => intro b; rfl
  | cons i L ih =>
    intro b
    have hji : i ≠ j := fun h => hj (h ▸ List.mem_cons_self _ _)
    have hjL : j ∉ L := fun h => hj (List.mem_cons_of_mem _ h)
    simp only [fill]
    rw [ih hjL, getD_set_ne _ _ _ _ hji]

/-- A member of the group of a power of two is neither 0 nor a power of two. -/
theorem isNotC_of_inGroup (i j : Nat) (hi : utils.bit.isPowerOfTwo i = true)
    (h : inGroup i j = true) : utils.hamming.isNotC j = true := by
  obtain ⟨c, rfl⟩ := (isPowerOfTwo_iff i).1 hi
  rw [inGroup_two_pow] at h
  simp only [Bool.and_eq_true, decide_eq_true_eq] at h
  simp only [utils.hamming.isNotC, Bool.and_eq_true, Bool.not_eq_true', bne_iff_ne]
  constructor
  · cases hp : utils.bit.isPowerOfTwo j with
    | false => rfl
    | true =>
      obtain ⟨d, rfl⟩ := (isPowerOfTwo_iff j).1 hp
      have := h.2
      rw [Nat.testBit_two_pow] at this
      simp only [decide_eq_true_eq] at this
      subst this
      exact absurd rfl h.1
  · rintro rfl
    simp at h

theorem groupParity_congr (N i : Nat) (b b' : List Bool) (hi : utils.bit.isPowerOfTwo i = true)
    (h : ∀ j, utils.hamming.isNotC j = true → b.getD j false = b'.getD j false) :
    groupParity N i b = groupParity N i b' := by
  apply par_congr
  intro j _
  cases hg : inGroup i j with
  | false => simp
  | true => simpa using h j (isNotC_of_inGroup i j hi hg)

theorem not_isNotC_of_isPowerOfTwo (i : Nat) (hi : utils.bit.isPowerOfTwo i = true) :
    utils.hamming.isNotC i = false := by
  simp [utils.hamming.isNotC, hi]

theorem fill_getD_of_mem (N : Nat) (L : List Nat) (hnd : L.Nodup)
    (hp : ∀ i ∈ L, utils.bit.isPowerOfTwo i = true) :
    ∀ (b : List Bool), (∀ i ∈ L, i < b.length) → ∀ i ∈ L,
      (fill N L b).getD i false = Bool.xor (b.getD i false) (groupParity N i b) := by
  induction L with
  | nil => intro b _ i hi; simp at hi
  | cons a L ih =>
    intro b hb i hi
    have haL : a ∉ L := (List.nodup_cons.mp hnd).1
    have hndL : L.Nodup := (List.nodup_cons.mp hnd).2
    have hpa := hp a (List.mem_cons_self _ _)
    simp only [fill]
    rcases List.mem_cons.mp hi with rfl | hiL
    · rw [fill_getD_of_not_mem N L _ haL, getD_set_self _ _ _ (hb _ (List.mem_cons_self _ _))]
    · have hne : a ≠ i := fun h => haL (h ▸ hiL)
      rw [ih hndL (fun j hj => hp j (List.mem_cons_of_mem _ hj)) _
        (fun j hj => by simpa using hb j (List.mem_cons_of_mem _ hj)) i hiL]
      rw [getD_set_ne _ _ _ _ hne]
      congr 1
      apply groupParity_congr N i _ _ (hp i hi)
      intro j hj
      apply getD_set_ne
      rintro rfl
      rw [not_isNotC_of_isPowerOfTwo _ hpa] at hj
      exact absurd hj (by simp)

theorem count_mod_two (b : List Bool) : dynamic_bitset.count b % 2 = (xorAll b).toNat := by
  induction b with
  | nil => rfl
  | cons x b ih =>
    simp only [dynamic_bitset.count, xorAll, List.foldr_cons] at ih ⊢
    cases x
    · simpa using ih
    · rw [List.count_cons_self]
      cases h : List.foldr Bool.xor false b
      · rw [h] at ih; simp at ih ⊢; omega
      · rw [h] at ih; simp at ih ⊢; omega

theorem count_odd_eq (b : List Bool) : (dynamic_bitset.count b % 2 == 1) = xorAll b := by
  rw [count_mod_two]; cases xorAll b <;> rfl

theorem xorAll_set (b : List Bool) : ∀ (p : Nat) (v : Bool), p < b.length →
    xorAll (b.set p v) = Bool.xor (Bool.xor (xorAll b) (b.getD p false)) v := by
  induction b with
  | nil => intro p v h; simp at h
  | cons x b ih =>
    intro p v h
    cases p with
    | zero =>
      simp only [List.set_cons_zero, xorAll, List.foldr_cons]
      cases x <;> cases v <;> cases List.foldr Bool.xor false b <;> rfl
    | succ p =>
      have := ih p v (by simpa using h)
      simp only [List.set_cons_succ, xorAll, List.foldr_cons] at this ⊢
      rw [this]
      have hg : (x :: b).getD (p + 1) false = b.getD p false := by simp
      rw [hg]
      cases x <;> cases v <;> cases List.foldr Bool.xor false b <;> cases b.getD p false <;> rfl

theorem createHammingWord_eq (value : List Bool) (N : Nat) (hN : N ≤ 127)
    (hlen : (mpos N).length ≤ value.length) :
    hamming.createHammingWord value N = some (place (mpos N) value (List.replicate N false)) := by
  have hmod : N % 256 = N := Nat.mod_eq_of_lt (by omega)
  unfold hamming.createHammingWord
  rw [hmod, if_neg (by omega), foldlM_guard]
  have h := placeLoop value (mpos N) (List.replicate N false) 0
    (fun i hi => by
      have := (List.mem_filter.mp hi).1
      simpa using this) (by simpa using hlen)
  simp only [mpos] at h ⊢
  rw [h]
  simp [mpos]

theorem mem_cpos (N i : Nat) : i ∈ cpos N ↔ i < N ∧ utils.bit.isPowerOfTwo i = true := by
  simp [cpos, List.mem_filter]

theorem mem_mpos (N i : Nat) : i ∈ mpos N ↔ i < N ∧ utils.hamming.isNotC i = true := by
  simp [mpos, List.mem_filter]

theorem encode_eq (m : List Bool) (K : Nat) (hnz : dynamic_bitset.none m = false)
    (hK : utils.hamming.findMinK m.length = some K) (hN : K + m.length + 1 ≤ 127)
    (hlen : (mpos (K + m.length + 1)).length ≤ m.length) :
    hamming.encode m = some (codeword (K + m.length + 1) m) := by
  have hmod : (K + m.length + 1) % 65536 = K + m.length + 1 := Nat.mod_eq_of_lt (by omega)
  unfold hamming.encode
  rw [if_neg (by simp [hnz]), hK, some_bind_eq]
  simp only [hmod]
  rw [createHammingWord_eq m _ hN hlen, some_bind_eq, foldlM_guard_not]
  have h := encode_outer (K + m.length + 1) (cpos (K + m.length + 1))
    (fun i hi => ((mem_cpos _ _).1 hi).1)
    (place (mpos (K + m.length + 1)) m (List.replicate (K + m.length + 1) false))
    (by simp [length_place])
  simp only [cpos] at h
  rw [h, some_bind_eq, assign_eq_set _ _ _ (by simp [length_fill, length_place])]
  rfl

theorem getD_replicate_false (n j : Nat) : (List.replicate n false).getD j false = false := by
  by_cases h : j < n
  · simp [List.getD, List.getElem?_replicate, h]
  · simp [List.getD, List.getElem?_replicate, h]

theorem length_codeword (N : Nat) (m : List Bool) : (codeword N m).length = N := by
  simp [codeword, length_fill, length_place]

theorem isNotC_ne_zero (j : Nat) (h : utils.hamming.isNotC j = true) : j ≠ 0 := by
  rintro rfl; exact absurd h (by decide)

theorem isPowerOfTwo_ne_zero (j : Nat) (h : utils.bit.isPowerOfTwo j = true) : j ≠ 0 := by
  rintro rfl; exact absurd h (by decide)

theorem isNotC_not_pow (j : Nat) (h : utils.hamming.isNotC j = true) :
    utils.bit.isPowerOfTwo j = false := by
  simp only [utils.hamming.isNotC, Bool.and_eq_true, Bool.not_eq_true'] at h
  exact h.1

theorem codeword_getD_notC (N : Nat) (m : List Bool) (j : Nat)
    (hj : utils.hamming.isNotC j = true) :
    (codeword N m).getD j false = (place (mpos N) m (List.replicate N false)).getD j false := by
  unfold codeword
  rw [getD_set_ne _ _ _ _ (Ne.symm (isNotC_ne_zero j hj))]
  apply fill_getD_of_not_mem
  intro h
  have := ((mem_cpos _ _).1 h).2
  rw [isNotC_not_pow j hj] at this
  exact absurd this (by simp)

theorem filled_getD_zero (N : Nat) (m : List Bool) :
    (fill N (cpos N) (place (mpos N) m (List.replicate N false))).getD 0 false = false := by
  rw [fill_getD_of_not_mem, place_getD_of_not_mem, getD_replicate_false]
  · intro h
    exact absurd ((mem_mpos _ _).1 h).2 (by decide)
  · intro h
    exact absurd ((mem_cpos _ _).1 h).2 (by decide)

theorem codeword_check (N : Nat) (m : List Bool) (i : Nat) (hi : i < N)
    (hp : utils.bit.isPowerOfTwo i = true) :
    (codeword N m).getD i false = groupParity N i (codeword N m) := by
  have h1 : (codeword N m).getD i false
      = (fill N (cpos N) (place (mpos N) m (List.replicate N false))).getD i false := by
    unfold codeword
    rw [getD_set_ne _ _ _ _ (Ne.symm (isPowerOfTwo_ne_zero i hp))]
  rw [h1, fill_getD_of_mem N (cpos N) ((List.nodup_range N).filter _)
    (fun j hj => ((mem_cpos _ _).1 hj).2) _
    (fun j hj => by simpa [length_place] using ((mem_cpos _ _).1 hj).1) i ((mem_cpos _ _).2 ⟨hi, hp⟩)]
  rw [place_getD_of_not_mem, getD_replicate_false]
  · rw [Bool.false_xor]
    apply groupParity_congr N i _ _ hp
    intro j hj
    exact (codeword_getD_notC N m j hj).symm
  · intro h
    have := ((mem_mpos _ _).1 h).2
    rw [not_isNotC_of_isPowerOfTwo i hp] at this
    exact absurd this (by simp)

theorem xorAll_codeword (N : Nat) (m : List Bool) (hN : 0 < N) : xorAll (codeword N m) = false := by
  unfold codeword
  rw [xorAll_set _ _ _ (by simpa [length_fill, length_place] using hN), filled_getD_zero,
    count_odd_eq]
  simp

theorem map_codeword (N : Nat) (m : List Bool) (hlen : (mpos N).length ≤ m.length) :
    (mpos N).map (fun j => (codeword N m).getD j false) = m.take (mpos N).length := by
  rw [← map_place (mpos N) ((List.nodup_range N).filter _) m (List.replicate N false)
    (fun j hj => by simpa using ((mem_mpos _ _).1 hj).1) hlen]
  apply List.map_congr_left
  intro j hj
  exact codeword_getD_notC N m j ((mem_mpos _ _).1 hj).2

theorem findMinKLoop_spec (n : Nat) : ∀ (left k : Nat), n < 2 ^ (k + left - 1) → 0 < left →
    (k = 0 ∨ 2 ^ (k - 1) - 1 < n) →
    ∃ r, utils.hamming.findMinKLoop n left k = some r ∧ n ≤ 2 ^ r - 1
      ∧ (r = 0 ∨ 2 ^ (r - 1) - 1 < n) ∧ r < k + left := by
  intro left
  induction left with
  | zero => intro k _ h; omega
  | succ left ih =>
    intro k hn _ hk
    unfold utils.hamming.findMinKLoop
    rw [Nat.one_shiftLeft]
    by_cases h : n > 2 ^ k - 1
    · rw [if_pos h]
      have hleft : 0 < left := by
        rcases Nat.eq_zero_or_pos left with h0 | h0
        · subst h0; simp at hn; omega
        · exact h0
      have hn' : n < 2 ^ (k + 1 + left - 1) := by
        have : k + 1 + left - 1 = k + (left + 1) - 1 := by omega
        rw [this]; exact hn
      obtain ⟨r, h1, h2, h3, h4⟩ := ih (k + 1) hn' hleft (Or.inr (by simpa using h))
      exact ⟨r, h1, h2, h3, by omega⟩
    · rw [if_neg h]
      exact ⟨k, rfl, by omega, hk, by omega⟩

theorem findMinKLoop_some (n : Nat) : ∀ (left k r : Nat), (k = 0 ∨ 2 ^ (k - 1) - 1 < n) →
    utils.hamming.findMinKLoop n left k = some r →
    n ≤ 2 ^ r - 1 ∧ (r = 0 ∨ 2 ^ (r - 1) - 1 < n) ∧ r < k + left := by
  intro left
  induction left with
  | zero => intro k r _ h; simp [utils.hamming.findMinKLoop] at h
  | succ left ih =>
    intro k r hk h
    unfold utils.hamming.findMinKLoop at h
    rw [Nat.one_shiftLeft] at h
    by_cases hgt : n > 2 ^ k - 1
    · rw [if_pos hgt] at h
      obtain ⟨h1, h2, h3⟩ := ih (k + 1) r (Or.inr (by simpa using hgt)) h
      exact ⟨h1, h2, by omega⟩
    · rw [if_neg hgt] at h
      cases h
      exact ⟨by omega, hk, by omega⟩

/-- What `findMinK` returns when it returns. -/
theorem findMinK_some (n K : Nat) (h : utils.hamming.findMinK n = some K) :
    n ≤ 2 ^ K - 1 ∧ (K = 0 ∨ 2 ^ (K - 1) - 1 < n) ∧ K ≤ 30 := by
  obtain ⟨h1, h2, h3⟩ := findMinKLoop_some n 31 0 K (Or.inl rfl) h
  exact ⟨h1, h2, by omega⟩

/-- `findMinK` returns on every argument below `2 ^ 30`, and its result is the least
`K` with `n ≤ 2 ^ K - 1`. -/
theorem findMinK_spec (n : Nat) (hn : n < 2 ^ 30) :
    ∃ K, utils.hamming.findMinK n = some K ∧ n ≤ 2 ^ K - 1 ∧ (K = 0 ∨ 2 ^ (K - 1) - 1 < n)
      ∧ ∀ j, n ≤ 2 ^ j - 1 → K ≤ j := by
  obtain ⟨r, h1, h2, h3, _⟩ :=
    findMinKLoop_spec n 31 0 (by simpa using hn) (by omega) (Or.inl rfl)
  refine ⟨r, h1, h2, h3, ?_⟩
  intro j hj
  by_contra hlt
  rcases h3 with h0 | h3
  · omega
  · have : 2 ^ j ≤ 2 ^ (r - 1) := Nat.pow_le_pow_right (by omega) (by omega)
    omega

theorem clog_of_findMinK (M K : Nat) (hK : utils.hamming.findMinK M = some K) :
    K ≤ Nat.clog 2 (K + M + 1) := by
  obtain ⟨_, h2, _⟩ := findMinK_some M K hK
  rcases h2 with h0 | h2
  · omega
  · by_contra hlt
    have h3 : Nat.clog 2 (K + M + 1) ≤ K - 1 := by omega
    have := (Nat.le_pow_iff_clog_le (by omega : 1 < 2)).2 h3
    omega

theorem clog_of_consistent (M K : Nat) (hK : utils.hamming.findMinK M = some K)
    (hc : K + M + 1 ≤ 2 ^ K) : Nat.clog 2 (K + M + 1) = K :=
  Nat.le_antisymm ((Nat.le_pow_iff_clog_le (by omega : 1 < 2)).1 hc) (clog_of_findMinK M K hK)

theorem length_cpos (N : Nat) : (cpos N).length = Nat.clog 2 N := by
  simp [cpos, checkPositions]

theorem length_mpos_le (M K : Nat) (hK : utils.hamming.findMinK M = some K) :
    (mpos (K + M + 1)).length ≤ M := by
  have h1 := length_positions (K + M + 1) (by omega)
  have h2 := length_cpos (K + M + 1)
  have h3 := clog_of_findMinK M K hK
  simp only [mpos, cpos] at h1 h2 ⊢
  omega

theorem length_mpos (M K : Nat) (hK : utils.hamming.findMinK M = some K)
    (hc : K + M + 1 ≤ 2 ^ K) : (mpos (K + M + 1)).length = M := by
  have h1 := length_positions (K + M + 1) (by omega)
  have h2 := length_cpos (K + M + 1)
  have h3 := clog_of_consistent M K hK hc
  simp only [mpos, cpos] at h1 h2 ⊢
  omega

theorem extractC_eq (input : List Bool) (M K : Nat) (hM : M ≤ 255)
    (hK : utils.hamming.findMinK M = some K) (hlen : (cpos input.length).length = K) :
    utils.hamming.extractC input M = some ((cpos input.length).map (fun i => input.getD i false)) := by
  have hmod : M % 256 = M := Nat.mod_eq_of_lt (by omega)
  have hK30 := (findMinK_some M K hK).2.2
  unfold utils.hamming.extractC
  rw [hmod, hK, some_bind_eq, foldlM_guard]
  have h := extractLoop input (cpos input.length) (fun i hi => ((mem_cpos _ _).1 hi).1) []
    (List.replicate K false) (by simp [hlen]) (by simp [hlen]; omega)
  simp only [cpos, List.nil_append, List.length_nil] at h ⊢
  rw [h, some_bind_eq]
  simp only [cpos] at hlen
  simp [hlen]

theorem extractM_eq (input : List Bool) (M : Nat) (hM : M ≤ 255)
    (hlen : (mpos input.length).length = M) :
    utils.hamming.extractM input M = some ((mpos input.length).map (fun i => input.getD i false)) := by
  have hmod : M % 256 = M := Nat.mod_eq_of_lt (by omega)
  unfold utils.hamming.extractM
  rw [hmod, foldlM_guard]
  have h := extractLoop input (mpos input.length) (fun i hi => ((mem_mpos _ _).1 hi).1) []
    (List.replicate M false) (by simp [hlen]) (by simp [hlen]; omega)
  simp only [mpos, List.nil_append, List.length_nil] at h ⊢
  rw [h, some_bind_eq]
  simp only [mpos] at hlen
  simp [hlen]

theorem decode_inner (N i c : Nat) (input primeC : List Bool) (hN : N ≤ input.length)
    (hc : c < primeC.length) :
    (List.range N).foldlM (fun (primeC : List Bool) j =>
        if i != j && (i &&& j) != 0 then do
          let t ← dynamic_bitset.test input j
          if t then dynamic_bitset.flip primeC c else pure primeC
        else pure primeC) primeC
      = some (primeC.set c (Bool.xor (primeC.getD c false) (groupParity N i input))) := by
  have hrd : ∀ (x : Bool) (j : Nat), j ∈ List.range N → inGroup i j = true →
      (fun (_ : List Bool) j => dynamic_bitset.test input j) (primeC.set c x) j
        = some (input.getD j false) := by
    intro x j hj _
    have : j < N := by simpa using hj
    exact test_eq_getD _ _ (by omega)
  have h := flipLoop (List.range N) (inGroup i) (fun _ j => dynamic_bitset.test input j)
    (fun j => input.getD j false) primeC c hc hrd (primeC.getD c false)
  rw [set_getD_self] at h
  exact h

theorem primeLoop (N : Nat) (input : List Bool) (hN : N ≤ input.length) (L : List Nat) :
    ∀ (A : List Bool) (n : Nat), L.length ≤ n → A.length + L.length ≤ 255 →
    L.foldlM (fun (s : List Bool × Nat) i => do
        let primeC ← (List.range N).foldlM (fun (primeC : List Bool) j =>
            if i != j && (i &&& j) != 0 then do
              let t ← dynamic_bitset.test input j
              if t then dynamic_bitset.flip primeC s.2 else pure primeC
            else pure primeC) s.1
        pure (primeC, (s.2 + 1) % 256)) (A ++ List.replicate n false, A.length)
      = some (A ++ L.map (fun i => groupParity N i input) ++ List.replicate (n - L.length) false,
          A.length + L.length) := by
  induction L with
  | nil => intro A n _ _; simp
  | cons i L ih =>
    intro A n hn hA
    simp only [List.length_cons] at hn hA
    obtain ⟨n', rfl⟩ : ∃ n', n = n' + 1 := ⟨n - 1, by omega⟩
    have ih' := ih (A ++ [groupParity N i input]) n' (by omega) (by simp; omega)
    simp only [List.foldlM_cons]
    rw [decode_inner N i A.length input _ hN (by simp), some_bind_eq]
    have h256 : (A.length + 1) % 256 = A.length + 1 := Nat.mod_eq_of_lt (by omega)
    have hget : (A ++ List.replicate (n' + 1) false).getD A.length false = false := by
      rw [List.getD_eq_getElem?_getD, List.getElem?_append_right (Nat.le_refl _)]
      simp [List.replicate_succ]
    have hset : (A ++ List.replicate (n' + 1) false).set A.length (groupParity N i input)
        = (A ++ [groupParity N i input]) ++ List.replicate n' false := by
      rw [List.set_append_right _ _ (Nat.le_refl _)]
      simp [List.replicate_succ]
    simp only [List.length_append, List.length_singleton] at ih'
    simp only [Option.pure_def] at ih' ⊢
    rw [some_bind_eq, h256, hget, Bool.false_xor, hset, ih']
    simp [Nat.add_assoc, Nat.add_comm 1]

theorem par_append (A B : List Nat) (f : Nat → Bool) :
    par (A ++ B) f = Bool.xor (par A f) (par B f) := by
  induction A with
  | nil => simp [par]
  | cons a A ih =>
    simp only [par, List.cons_append, List.foldr_cons] at ih ⊢
    rw [ih, Bool.xor_assoc]

theorem par_xor (J : List Nat) (f g : Nat → Bool) :
    par J (fun j => Bool.xor (f j) (g j)) = Bool.xor (par J f) (par J g) := by
  induction J with
  | nil => simp [par]
  | cons a J ih =>
    simp only [par, List.foldr_cons] at ih ⊢
    rw [ih]
    generalize List.foldr (fun j a => Bool.xor (f j) a) false J = u
    generalize List.foldr (fun j a => Bool.xor (g j) a) false J = v
    cases f a <;> cases g a <;> cases u <;> cases v <;> rfl

theorem par_false (J : List Nat) (f : Nat → Bool) (h : ∀ j ∈ J, f j = false) : par J f = false := by
  induction J with
  | nil => rfl
  | cons a J ih =>
    simp only [par, List.foldr_cons] at ih ⊢
    rw [h a (List.mem_cons_self _ _), ih (fun j hj => h j (List.mem_cons_of_mem _ hj))]
    rfl

theorem par_single (N p : Nat) (f : Nat → Bool) (hp : p < N) :
    par (List.range N) (fun j => decide (j = p) && f j) = f p := by
  induction N with
  | zero => omega
  | succ n ih =>
    rw [List.range_succ, par_append]
    rcases Nat.lt_succ_iff_lt_or_eq.mp hp with h | h
    · rw [ih h]
      have : n ≠ p := by omega
      simp [par, this]
    · subst h
      rw [par_false]
      · simp [par]
      · intro j hj
        have : j ≠ p := by
          have := List.mem_range.mp hj
          omega
        simp [this]

theorem chk_split (N c : Nat) (b : List Bool) (hc : 2 ^ c < N) :
    chk N c b = Bool.xor (groupParity N (2 ^ c) b) (b.getD (2 ^ c) false) := by
  rw [← par_single N (2 ^ c) (fun j => b.getD j false) hc]
  unfold chk groupParity
  rw [← par_xor]
  apply par_congr
  intro j _
  rw [inGroup_two_pow]
  by_cases h : j = 2 ^ c
  · subst h
    simp [Nat.testBit_two_pow_self]
  · have h' : 2 ^ c ≠ j := fun e => h e.symm
    simp [h, h']

theorem getD_flip (b : List Bool) (p j : Nat) (hp : p < b.length) :
    (b.set p (!b.getD p false)).getD j false = Bool.xor (b.getD j false) (decide (j = p)) := by
  by_cases h : j = p
  · subst h
    rw [getD_set_self _ _ _ hp]
    simp
  · rw [getD_set_ne _ _ _ _ (fun e => h e.symm)]
    simp [h]

theorem chk_flip (N c p : Nat) (b : List Bool) (hp : p < N) (hlen : b.length = N) :
    chk N c (b.set p (!b.getD p false)) = Bool.xor (chk N c b) (p.testBit c) := by
  rw [← par_single N p (fun j => j.testBit c) hp]
  unfold chk
  rw [← par_xor]
  apply par_congr
  intro j _
  rw [getD_flip b p j (by omega)]
  cases j.testBit c <;> cases b.getD j false <;> cases decide (j = p) <;> rfl

theorem value_append (A B : List Bool) :
    dynamic_bitset.value (A ++ B) = dynamic_bitset.value A + 2 ^ A.length * dynamic_bitset.value B := by
  induction A with
  | nil => simp [dynamic_bitset.value]
  | cons a A ih =>
    rw [List.cons_append]
    simp only [dynamic_bitset.value, List.length_cons, Nat.pow_succ]
    rw [ih]
    ring

theorem value_lt (A : List Bool) : dynamic_bitset.value A < 2 ^ A.length := by
  induction A with
  | nil => simp [dynamic_bitset.value]
  | cons a A ih =>
    simp only [dynamic_bitset.value, List.length_cons, Nat.pow_succ]
    cases a <;> simp <;> omega

theorem value_map_testBit (p K : Nat) :
    dynamic_bitset.value ((List.range K).map (fun c => p.testBit c)) = p % 2 ^ K := by
  induction K with
  | zero => simp [dynamic_bitset.value, Nat.mod_one]
  | succ K ih =>
    rw [List.range_succ, List.map_append, value_append, ih, Nat.mod_pow_succ]
    simp only [List.length_map, List.length_range, List.map_cons, List.map_nil,
      dynamic_bitset.value, Nat.mul_zero, Nat.add_zero, Nat.toNat_testBit]

theorem zipWith_xor_map (L : List Nat) (f g : Nat → Bool) :
    List.zipWith Bool.xor (L.map f) (L.map g) = L.map (fun i => Bool.xor (f i) (g i)) := by
  induction L with
  | nil => rfl
  | cons a L ih => simp [ih]

theorem cpos_eq (M K : Nat) (hK : utils.hamming.findMinK M = some K) (hc : K + M + 1 ≤ 2 ^ K) :
    cpos (K + M + 1) = (List.range K).map (2 ^ ·) := by
  rw [cpos, checkPositions, clog_of_consistent M K hK hc]

theorem two_pow_lt_of_consistent (M K c : Nat) (hK : utils.hamming.findMinK M = some K)
    (hcK : c < K) : 2 ^ c < K + M + 1 := by
  obtain ⟨_, h2, _⟩ := findMinK_some M K hK
  rcases h2 with h0 | h2
  · omega
  · have : 2 ^ c ≤ 2 ^ (K - 1) := Nat.pow_le_pow_right (by omega) (by omega)
    omega

theorem syndrome_eq (input : List Bool) (M K : Nat) (hM : M ≤ 255)
    (hK : utils.hamming.findMinK M = some K) (hc : K + M + 1 ≤ 2 ^ K)
    (hlen : input.length = K + M + 1) :
    hamming.syndrome input M
      = some (dynamic_bitset.value ((List.range K).map (fun c => chk (K + M + 1) c input))) := by
  have hK30 := (findMinK_some M K hK).2.2
  have hmod : M % 256 = M := Nat.mod_eq_of_lt (by omega)
  have hmodN : (K + M + 1) % 65536 = K + M + 1 := Nat.mod_eq_of_lt (by omega)
  have hcl : (cpos (K + M + 1)).length = K := by
    rw [length_cpos, clog_of_consistent M K hK hc]
  unfold hamming.syndrome
  rw [hmod, hK, some_bind_eq]
  simp only [hmodN]
  rw [extractC_eq input M K hM hK (by rw [hlen]; exact hcl), some_bind_eq, foldlM_guard_not]
  have h := primeLoop (K + M + 1) input (by omega) (cpos (K + M + 1)) [] K
    (by omega) (by simp; omega)
  simp only [cpos, List.nil_append, List.length_nil] at h
  rw [h, some_bind_eq]
  have hce := cpos_eq M K hK hc
  simp only [cpos] at hce
  simp only [cpos, hlen, hce, List.length_map, List.length_range, Nat.sub_self,
    List.replicate_zero, List.append_nil]
  unfold dynamic_bitset.xor
  rw [if_pos (by simp), some_bind_eq, zipWith_xor_map, List.map_map]
  have hmap : List.map ((fun i => Bool.xor (groupParity (K + M + 1) i input) (input.getD i false))
        ∘ fun x => 2 ^ x) (List.range K)
      = List.map (fun c => chk (K + M + 1) c input) (List.range K) := by
    apply List.map_congr_left
    intro c hcm
    have hcK : c < K := List.mem_range.mp hcm
    simp only [Function.comp]
    rw [chk_split _ _ _ (two_pow_lt_of_consistent M K c hK hcK)]
  rw [hmap]
  unfold dynamic_bitset.to_ulong
  rw [if_pos]
  have hv := value_lt (List.map (fun c => chk (K + M + 1) c input) (List.range K))
  simp only [List.length_map, List.length_range] at hv
  have : 2 ^ K ≤ 2 ^ 64 := Nat.pow_le_pow_right (by omega) (by omega)
  omega

theorem primeG_check (w : List Bool) (hlen : 0 < w.length) :
    ∃ pG g, hamming.primeG w = some pG ∧ dynamic_bitset.test w 0 = some g
      ∧ (pG != g.toNat) = xorAll w := by
  cases w with
  | nil => simp at hlen
  | cons g rest =>
    have ht : dynamic_bitset.test (g :: rest) 0 = some g := by simp [dynamic_bitset.test]
    refine ⟨if g then (if dynamic_bitset.count (g :: rest) % 2 = 0 then 1 else 0)
      else dynamic_bitset.count (g :: rest) % 2, g, ?_, ht, ?_⟩
    · unfold hamming.primeG
      rw [ht, some_bind_eq]
      rfl
    · rw [count_mod_two]
      have hx : xorAll (g :: rest) = Bool.xor g (xorAll rest) := rfl
      rw [hx]
      clear ht hlen
      cases g <;> cases xorAll rest <;> decide

theorem decode_eq (input : List Bool) (M s : Nat) (w : List Bool)
    (hnz : dynamic_bitset.none input = false) (hs : hamming.syndrome input M = some s)
    (hle : s ≤ input.length) (hcorr : hamming.correct input s = some w) (hw : 0 < w.length) :
    hamming.decode input M
      = if xorAll w then some (Maybe.error hamming.errG)
        else (utils.hamming.extractM w M).bind (fun r => some (Maybe.some r)) := by
  obtain ⟨pG, g, h1, h2, h3⟩ := primeG_check w hw
  unfold hamming.decode
  rw [if_neg (by simp [hnz]), hs, some_bind_eq, if_neg (by omega), hcorr, some_bind_eq, h1,
    some_bind_eq, h2, some_bind_eq, h3]
  cases xorAll w <;> rfl

theorem none_getD (b : List Bool) (h : dynamic_bitset.none b = true) (j : Nat) :
    b.getD j false = false := by
  simp only [dynamic_bitset.none, List.all_eq_true, Bool.not_eq_true'] at h
  by_cases hj : j < b.length
  · rw [List.getD_eq_getElem _ _ hj]
    exact h _ (List.getElem_mem hj)
  · simp [List.getD, List.getElem?_eq_none (Nat.le_of_not_lt hj)]

theorem none_xorAll (b : List Bool) (h : dynamic_bitset.none b = true) : xorAll b = false := by
  induction b with
  | nil => rfl
  | cons x b ih =>
    simp only [dynamic_bitset.none, List.all_cons, Bool.and_eq_true, Bool.not_eq_true'] at h ih
    simp only [xorAll, List.foldr_cons] at ih ⊢
    rw [h.1, ih h.2]
    rfl

theorem chk_codeword (M K c : Nat) (m : List Bool) (hK : utils.hamming.findMinK M = some K)
    (hcK : c < K) : chk (K + M + 1) c (codeword (K + M + 1) m) = false := by
  have hlt := two_pow_lt_of_consistent M K c hK hcK
  rw [chk_split _ _ _ hlt, ← codeword_check _ _ _ hlt (isPowerOfTwo_two_pow c)]
  simp

theorem extractM_codeword (m : List Bool) (K : Nat)
    (hK : utils.hamming.findMinK m.length = some K) (hc : K + m.length + 1 ≤ 2 ^ K)
    (hM : m.length ≤ 255) :
    utils.hamming.extractM (codeword (K + m.length + 1) m) m.length = some m := by
  have hl := length_mpos m.length K hK hc
  rw [extractM_eq _ _ hM (by rw [length_codeword]; exact hl), length_codeword,
    map_codeword _ _ (by omega), hl, List.take_length]

theorem codeword_not_none (m : List Bool) (K : Nat)
    (hK : utils.hamming.findMinK m.length = some K) (hc : K + m.length + 1 ≤ 2 ^ K)
    (hnz : dynamic_bitset.none m = false) :
    dynamic_bitset.none (codeword (K + m.length + 1) m) = false := by
  have hl := length_mpos m.length K hK hc
  cases h : dynamic_bitset.none (codeword (K + m.length + 1) m) with
  | false => rfl
  | true =>
    have hmap := map_codeword (K + m.length + 1) m (by omega)
    rw [hl, List.take_length] at hmap
    have hmem : ∀ x ∈ m, x = false := by
      intro x hx
      rw [← hmap] at hx
      obtain ⟨j, _, rfl⟩ := List.mem_map.mp hx
      exact none_getD _ h j
    have hall : dynamic_bitset.none m = true := by
      unfold dynamic_bitset.none
      rw [List.all_eq_true]
      intro x hx
      rw [hmem x hx]
      rfl
    rw [hall] at hnz
    exact absurd hnz (by simp)

theorem syndrome_codeword (m : List Bool) (K : Nat)
    (hK : utils.hamming.findMinK m.length = some K) (hc : K + m.length + 1 ≤ 2 ^ K)
    (hM : m.length ≤ 255) :
    hamming.syndrome (codeword (K + m.length + 1) m) m.length = some 0 := by
  rw [syndrome_eq _ _ K hM hK hc (length_codeword _ _)]
  have hmap : List.map (fun c => chk (K + m.length + 1) c (codeword (K + m.length + 1) m))
      (List.range K) = List.map (fun c => (0 : Nat).testBit c) (List.range K) := by
    apply List.map_congr_left
    intro c hcm
    rw [chk_codeword _ _ _ _ hK (List.mem_range.mp hcm)]
    simp
  rw [hmap, value_map_testBit]
  simp

theorem syndrome_flip (m : List Bool) (K p : Nat)
    (hK : utils.hamming.findMinK m.length = some K) (hc : K + m.length + 1 ≤ 2 ^ K)
    (hM : m.length ≤ 255) (hp : p < K + m.length + 1) :
    hamming.syndrome ((codeword (K + m.length + 1) m).set p
        (!(codeword (K + m.length + 1) m).getD p false)) m.length = some p := by
  rw [syndrome_eq _ _ K hM hK hc (by simp [length_codeword])]
  have hmap : List.map (fun c => chk (K + m.length + 1) c ((codeword (K + m.length + 1) m).set p
        (!(codeword (K + m.length + 1) m).getD p false))) (List.range K)
      = List.map (fun c => p.testBit c) (List.range K) := by
    apply List.map_congr_left
    intro c hcm
    rw [chk_flip _ _ _ _ hp (length_codeword _ _), chk_codeword _ _ _ _ hK (List.mem_range.mp hcm)]
    simp
  rw [hmap, value_map_testBit, Nat.mod_eq_of_lt (by omega)]

theorem set_flip_flip (b : List Bool) (p : Nat) (hp : p < b.length) :
    (b.set p (!b.getD p false)).set p (!(b.set p (!b.getD p false)).getD p false) = b := by
  rw [getD_set_self _ _ _ hp, List.set_set, Bool.not_not, set_getD_self]

/-- Decoding a codeword: success with the message. -/
theorem decode_codeword (m : List Bool) (K : Nat)
    (hK : utils.hamming.findMinK m.length = some K) (hc : K + m.length + 1 ≤ 2 ^ K)
    (hM : m.length ≤ 255) (hnz : dynamic_bitset.none m = false) :
    hamming.decode (codeword (K + m.length + 1) m) m.length = some (Maybe.some m) := by
  rw [decode_eq _ _ 0 (codeword (K + m.length + 1) m) (codeword_not_none m K hK hc hnz)
    (syndrome_codeword m K hK hc hM) (by omega) (by simp [hamming.correct])
    (by rw [length_codeword]; omega)]
  rw [xorAll_codeword _ _ (by omega), extractM_codeword m K hK hc hM]
  rfl

/-- Decoding a codeword with the bit at `p ≥ 1` flipped: the syndrome is `p`, the
correction restores the codeword, and the result is the message. -/
theorem decode_flip (m : List Bool) (K p : Nat)
    (hK : utils.hamming.findMinK m.length = some K) (hc : K + m.length + 1 ≤ 2 ^ K)
    (hM : m.length ≤ 255) (hp1 : 1 ≤ p) (hp : p < K + m.length + 1) :
    hamming.correct ((codeword (K + m.length + 1) m).set p
        (!(codeword (K + m.length + 1) m).getD p false)) p = some (codeword (K + m.length + 1) m)
    ∧ hamming.decode ((codeword (K + m.length + 1) m).set p
        (!(codeword (K + m.length + 1) m).getD p false)) m.length = some (Maybe.some m) := by
  have hlen := length_codeword (K + m.length + 1) m
  have hcorr : hamming.correct ((codeword (K + m.length + 1) m).set p
        (!(codeword (K + m.length + 1) m).getD p false)) p
      = some (codeword (K + m.length + 1) m) := by
    unfold hamming.correct
    rw [if_pos (by simp [hlen]; omega), flip_eq_set _ _ (by simp [hlen]; omega),
      set_flip_flip _ _ (by omega)]
  refine ⟨hcorr, ?_⟩
  have hx : xorAll ((codeword (K + m.length + 1) m).set p
        (!(codeword (K + m.length + 1) m).getD p false)) = true := by
    rw [xorAll_set _ _ _ (by omega), xorAll_codeword _ _ (by omega)]
    cases (codeword (K + m.length + 1) m).getD p false <;> rfl
  have hnone : dynamic_bitset.none ((codeword (K + m.length + 1) m).set p
        (!(codeword (K + m.length + 1) m).getD p false)) = false := by
    cases h : dynamic_bitset.none ((codeword (K + m.length + 1) m).set p
        (!(codeword (K + m.length + 1) m).getD p false)) with
    | false => rfl
    | true => rw [none_xorAll _ h] at hx; exact absurd hx (by simp)
  rw [decode_eq _ _ p (codeword (K + m.length + 1) m) hnone
    (syndrome_flip m K p hK hc hM hp) (by simp [hlen]; omega) hcorr (by omega)]
  rw [xorAll_codeword _ _ (by omega), extractM_codeword m K hK hc hM]
  rfl

/-! ## Evaluations on concrete inputs -/

theorem findMinK_eight : utils.hamming.findMinK 8 = some 4 := by decide

theorem findMinK_247 : utils.hamming.findMinK 247 = some 8 := by decide

theorem encode_m0F : hamming.encode m0F
    = some [true, true, true, true, true, true, true, true, false, false, false, false, false] := by
  decide

theorem encode_msg247 : hamming.encode msg247 = none := by decide

theorem encode_ones247 : hamming.encode ones247 = none := by decide

theorem encode_ones300 : hamming.encode ones300 = none := by decide

/-! ## Round trip and single-bit correction -/

/-- The shape of `encode` on a message with a set bit, for a consistent layout of at
most 127 bits. -/
theorem encode_consistent (M K : Nat) (m : List Bool) (hm : m.length = M)
    (hK : utils.hamming.findMinK M = some K) (hN : K + M + 1 ≤ 127)
    (hnz : dynamic_bitset.none m = false) :
    hamming.encode m = some (codeword (K + M + 1) m) := by
  subst hm
  exact encode_eq m K hnz hK hN (length_mpos_le m.length K hK)

/-- C1 (amended): round trip. For every message length `M` with a consistent layout
(`K = findMinK(M)`, `N = K + M + 1`, `N ≤ 2 ^ K`) whose codeword has at most 127 bits,
and every `M`-bit message `m`, the all-zero message included, `encode(m)` returns a
word and `decode` of that word with message length `M` is a success whose value is
`m`. -/
theorem roundtrip (M K : Nat) (m : List Bool) (hm : m.length = M)
    (hK : utils.hamming.findMinK M = some K) (hc : K + M + 1 ≤ 2 ^ K)
    (hN : K + M + 1 ≤ 127) :
    ∃ w, hamming.encode m = some w ∧ hamming.decode w M = some (Maybe.some m)
      ∧ (Maybe.some m).is_some = true := by
  cases hnz : dynamic_bitset.none m with
  | true =>
    refine ⟨m, ?_, ?_, rfl⟩
    · unfold hamming.encode; rw [if_pos hnz]
    · unfold hamming.decode; rw [if_pos hnz]
  | false =>
    refine ⟨codeword (K + M + 1) m, encode_consistent M K m hm hK hN hnz, ?_, rfl⟩
    subst hm
    exact decode_codeword m K hK hc (by omega) hnz

/-- Witness of `roundtrip`: the byte `0b00001111`, `M = 8`, `K = 4`, `N = 13`. -/
theorem roundtrip_witness :
    m0F.length = 8 ∧ utils.hamming.findMinK 8 = some 4 ∧ 4 + 8 + 1 ≤ 2 ^ 4 ∧ 4 + 8 + 1 ≤ 127
      ∧ ∃ w, hamming.encode m0F = some w ∧ hamming.decode w 8 = some (Maybe.some m0F)
        ∧ (Maybe.some m0F).is_some = true :=
  ⟨rfl, by decide, by decide, by decide,
    roundtrip 8 4 m0F rfl (by decide) (by decide) (by decide)⟩

/-- C1 (as stated) fails: the message length 247 has a consistent layout
(`findMinK(247) = 8`, `N = 256 = 2 ^ 8`), and `encode` of a 247-bit message with a set
bit does not return a word: `createHammingWord` receives `N` as a `uint8_t`, that is
0, and `encode` then tests a bit of an empty word. -/
theorem roundtrip_fails_247 :
    msg247.length = 247 ∧ utils.hamming.findMinK 247 = some 8 ∧ 8 + 247 + 1 ≤ 2 ^ 8
      ∧ ¬ ∃ w, hamming.encode msg247 = some w
          ∧ hamming.decode w 247 = some (Maybe.some msg247) := by
  refine ⟨by decide, findMinK_247, by decide, ?_⟩
  rintro ⟨w, hw, _⟩
  rw [encode_msg247] at hw
  exact absurd hw (by simp)

/-- C2 (amended): single-bit correction. For every message length `M` with a
consistent layout whose codeword has `N ≤ 127` bits, every `M`-bit message `m` with a
set bit and every position `p` with `1 ≤ p < N`, `decode` of `encode(m)` with only
bit `p` flipped is a success whose value is `m`. -/
theorem single_flip_corrected (M K p : Nat) (m : List Bool) (hm : m.length = M)
    (hK : utils.hamming.findMinK M = some K) (hc : K + M + 1 ≤ 2 ^ K)
    (hN : K + M + 1 ≤ 127) (hnz : dynamic_bitset.none m = false)
    (hp1 : 1 ≤ p) (hp : p < K + M + 1) :
    ∃ w w1, hamming.encode m = some w ∧ w.length = K + M + 1
      ∧ dynamic_bitset.flip w p = some w1
      ∧ hamming.decode w1 M = some (Maybe.some m) ∧ (Maybe.some m).is_some = true := by
  refine ⟨codeword (K + M + 1) m, flipped (codeword (K + M + 1) m) p,
    encode_consistent M K m hm hK hN hnz, length_codeword _ _,
    flip_eq_set _ _ (by rw [length_codeword]; exact hp), ?_, rfl⟩
  subst hm
  exact (decode_flip m K p hK hc (by omega) hp1 hp).2

/-- Witness of `single_flip_corrected`: the byte `0b00001111` and position 12. -/
theorem single_flip_corrected_witness :
    m0F.length = 8 ∧ utils.hamming.findMinK 8 = some 4 ∧ 4 + 8 + 1 ≤ 2 ^ 4 ∧ 4 + 8 + 1 ≤ 127
      ∧ dynamic_bitset.none m0F = false ∧ 1 ≤ 12 ∧ 12 < 4 + 8 + 1
      ∧ ∃ w w1, hamming.encode m0F = some w ∧ w.length = 4 + 8 + 1
        ∧ dynamic_bitset.flip w 12 = some w1
        ∧ hamming.decode w1 8 = some (Maybe.some m0F) ∧ (Maybe.some m0F).is_some = true :=
  ⟨rfl, by decide, by decide, by decide, by decide, by decide, by decide,
    single_flip_corrected 8 4 12 m0F rfl (by decide) (by decide) (by decide) (by decide)
      (by decide) (by decide)⟩

/-- C2 (as stated) fails at position 0 and on the all-zero message: with the global
parity bit of the codeword of `0b00001111` flipped `decode` returns the error
`G did not match`, and the all-zero byte, which `encode` returns as it is, decodes
with bit 3 flipped to no result at all (the 8-bit word is read at position 9). -/
theorem single_flip_fails_at_zero :
    (hamming.encode m0F >>= fun w => dynamic_bitset.flip w 0 >>= fun w1 => hamming.decode w1 8)
        = some (Maybe.error hamming.errG)
      ∧ (Maybe.error hamming.errG : Maybe (List Bool)).is_some = false
      ∧ (hamming.encode (List.replicate 8 false) >>= fun w => dynamic_bitset.flip w 3
          >>= fun w1 => hamming.decode w1 8) = none := by
  refine ⟨by decide, by decide, by decide⟩

/-- C3 (amended): single-bit correction of a check bit or message bit. For every
message length `M` with a consistent layout whose codeword has `N ≤ 127` bits, every
`M`-bit message `m` with a set bit and every position `p` with `1 ≤ p < N`, `decode`
of `encode(m)` with only bit `p` flipped computes the syndrome `p`, its correction
step flips bit `p` back, which gives `encode(m)` again, and it returns success with
the value `m`. -/
theorem single_flip_syndrome (M K p : Nat) (m : List Bool) (hm : m.length = M)
    (hK : utils.hamming.findMinK M = some K) (hc : K + M + 1 ≤ 2 ^ K)
    (hN : K + M + 1 ≤ 127) (hnz : dynamic_bitset.none m = false)
    (hp1 : 1 ≤ p) (hp : p < K + M + 1) :
    ∃ w w1, hamming.encode m = some w ∧ dynamic_bitset.flip w p = some w1
      ∧ hamming.syndrome w1 M = some p ∧ hamming.correct w1 p = some w
      ∧ hamming.decode w1 M = some (Maybe.some m) := by
  refine ⟨codeword (K + M + 1) m, flipped (codeword (K + M + 1) m) p,
    encode_consistent M K m hm hK hN hnz,
    flip_eq_set _ _ (by rw [length_codeword]; exact hp), ?_, ?_, ?_⟩
  · subst hm
    exact syndrome_flip m K p hK hc (by omega) hp
  · subst hm
    exact (decode_flip m K p hK hc (by omega) hp1 hp).1
  · subst hm
    exact (decode_flip m K p hK hc (by omega) hp1 hp).2

/-- Witness of `single_flip_syndrome`: the byte `0b00001111` and position 5. -/
theorem single_flip_syndrome_witness :
    m0F.length = 8 ∧ utils.hamming.findMinK 8 = some 4 ∧ 4 + 8 + 1 ≤ 2 ^ 4 ∧ 4 + 8 + 1 ≤ 127
      ∧ dynamic_bitset.none m0F = false ∧ 1 ≤ 5 ∧ 5 < 4 + 8 + 1
      ∧ ∃ w w1, hamming.encode m0F = some w ∧ dynamic_bitset.flip w 5 = some w1
        ∧ hamming.syndrome w1 8 = some 5 ∧ hamming.correct w1 5 = some w
        ∧ hamming.decode w1 8 = some (Maybe.some m0F) :=
  ⟨rfl, by decide, by decide, by decide, by decide, by decide, by decide,
    single_flip_syndrome 8 4 5 m0F rfl (by decide) (by decide) (by decide) (by decide)
      (by decide) (by decide)⟩

/-- C3 (as stated) fails: for the consistent message length 247 and the message of
247 set bits `encode` returns no word, so there is no codeword whose bit 1 could be
flipped and corrected. -/
theorem single_flip_syndrome_fails_247 :
    ones247.length = 247 ∧ utils.hamming.findMinK 247 = some 8 ∧ 8 + 247 + 1 ≤ 2 ^ 8
      ∧ dynamic_bitset.none ones247 = false ∧ 1 ≤ 1 ∧ 1 < 8 + 247 + 1
      ∧ ¬ ∃ w w1, hamming.encode ones247 = some w ∧ dynamic_bitset.flip w 1 = some w1
          ∧ hamming.syndrome w1 247 = some 1 ∧ hamming.correct w1 1 = some w
          ∧ hamming.decode w1 247 = some (Maybe.some ones247) := by
  refine ⟨by decide, findMinK_247, by decide, by decide, by decide, by decide, ?_⟩
  rintro ⟨w, _, hw, _⟩
  rw [encode_ones247] at hw
  exact absurd hw (by simp)

/-! ## Double flips -/

/-- C4 (the code at the failing input): the codeword of `0b00001111` with the bits
at the positions 1 and 12 flipped decodes to a success, and the value is not the
message: the syndrome 13 equals the size of the word, which neither of the two tests
of `decode` catches. -/
theorem double_flip_1_12_accepted :
    (hamming.encode m0F >>= fun w => dynamic_bitset.flip w 1 >>= fun w1 =>
        dynamic_bitset.flip w1 12 >>= fun w2 => hamming.decode w2 8)
      = some (Maybe.some [true, true, true, true, false, false, false, true])
    ∧ (Maybe.some [true, true, true, true, false, false, false, true]).is_some = true
    ∧ [true, true, true, true, false, false, false, true] ≠ m0F := by
  refine ⟨by decide, by decide, by decide⟩

/-- The syndrome of a word of a consistent layout, from its bits: `s` when bit `c` of
the syndrome is bit `c` of `s` for every `c < K`. -/
theorem syndrome_of_chk (input : List Bool) (M K s : Nat) (hM : M ≤ 255)
    (hK : utils.hamming.findMinK M = some K) (hc : K + M + 1 ≤ 2 ^ K)
    (hlen : input.length = K + M + 1) (hs : s < 2 ^ K)
    (h : ∀ c, c < K → chk (K + M + 1) c input = s.testBit c) :
    hamming.syndrome input M = some s := by
  rw [syndrome_eq input M K hM hK hc hlen]
  have hmap : List.map (fun c => chk (K + M + 1) c input) (List.range K)
      = List.map (fun c => s.testBit c) (List.range K) :=
    List.map_congr_left (fun c hcm => h c (List.mem_range.mp hcm))
  rw [hmap, value_map_testBit, Nat.mod_eq_of_lt hs]

theorem length_flipped (b : List Bool) (p : Nat) : (flipped b p).length = b.length := by
  simp [flipped]

theorem xorAll_flipped (b : List Bool) (p : Nat) (hp : p < b.length) :
    xorAll (flipped b p) = !xorAll b := by
  unfold flipped
  rw [xorAll_set _ _ _ hp]
  cases xorAll b <;> cases b.getD p false <;> rfl

theorem chk_flipped (N c p : Nat) (b : List Bool) (hp : p < N) (hlen : b.length = N) :
    chk N c (flipped b p) = Bool.xor (chk N c b) (p.testBit c) :=
  chk_flip N c p b hp hlen

theorem chk_none (N c : Nat) (b : List Bool) (h : dynamic_bitset.none b = true) :
    chk N c b = false := by
  apply par_false
  intro j _
  rw [none_getD b h j]
  simp

/-- C5: a detectable double flip for message length 8. For every 8-bit message `m`
with a set bit, `decode` of `encode(m)` with the bits at the positions 3 and 9 both
flipped returns an error, not a success. -/
theorem double_flip_3_9_detected (m : List Bool) (hm : m.length = 8)
    (hnz : dynamic_bitset.none m = false) :
    ∃ w w1 w2 r, hamming.encode m = some w ∧ dynamic_bitset.flip w 3 = some w1
      ∧ dynamic_bitset.flip w1 9 = some w2 ∧ hamming.decode w2 8 = some r
      ∧ r.is_error = true ∧ r.is_some = false := by
  have hK : utils.hamming.findMinK 8 = some 4 := findMinK_eight
  have hl : (codeword 13 m).length = 13 := length_codeword 13 m
  have hl1 : (flipped (codeword 13 m) 3).length = 13 := by rw [length_flipped, hl]
  have hl2 : (flipped (flipped (codeword 13 m) 3) 9).length = 13 := by rw [length_flipped, hl1]
  have hchk : ∀ c, c < 4 →
      chk 13 c (flipped (flipped (codeword 13 m) 3) 9) = (10 : Nat).testBit c := by
    intro c hc4
    have h0 := chk_codeword 8 4 c m hK hc4
    rw [chk_flipped 13 c 9 _ (by decide) hl1, chk_flipped 13 c 3 _ (by decide) hl, h0]
    have : c = 0 ∨ c = 1 ∨ c = 2 ∨ c = 3 := by omega
    rcases this with rfl | rfl | rfl | rfl <;> decide
  have hsyn : hamming.syndrome (flipped (flipped (codeword 13 m) 3) 9) 8 = some 10 :=
    syndrome_of_chk _ 8 4 10 (by decide) hK (by decide) hl2 (by decide) hchk
  have hnone : dynamic_bitset.none (flipped (flipped (codeword 13 m) 3) 9) = false := by
    cases h : dynamic_bitset.none (flipped (flipped (codeword 13 m) 3) 9) with
    | false => rfl
    | true =>
      have h1 := hchk 1 (by decide)
      rw [chk_none _ _ _ h] at h1
      exact absurd h1 (by decide)
  have hcorr : hamming.correct (flipped (flipped (codeword 13 m) 3) 9) 10
      = some (flipped (flipped (flipped (codeword 13 m) 3) 9) 10) := by
    unfold hamming.correct
    rw [if_pos (by rw [hl2]; decide)]
    exact flip_eq_set _ _ (by rw [hl2]; decide)
  have hx : xorAll (flipped (flipped (flipped (codeword 13 m) 3) 9) 10) = true := by
    rw [xorAll_flipped _ _ (by rw [hl2]; decide), xorAll_flipped _ _ (by rw [hl1]; decide),
      xorAll_flipped _ _ (by rw [hl]; decide), xorAll_codeword 13 m (by decide)]
    rfl
  refine ⟨codeword 13 m, flipped (codeword 13 m) 3, flipped (flipped (codeword 13 m) 3) 9,
    Maybe.error hamming.errG, ?_, flip_eq_set _ _ (by rw [hl]; decide),
    flip_eq_set _ _ (by rw [hl1]; decide), ?_, by decide, by decide⟩
  · exact encode_consistent 8 4 m hm hK (by decide) hnz
  · rw [decode_eq _ 8 10 _ hnone hsyn (by rw [hl2]; decide) hcorr
      (by rw [length_flipped, hl2]; decide), hx]
    rfl

/-- Witness of `double_flip_3_9_detected`: the byte `0b00001111`. -/
theorem double_flip_3_9_detected_witness :
    m0F.length = 8 ∧ dynamic_bitset.none m0F = false
      ∧ ∃ w w1 w2 r, hamming.encode m0F = some w ∧ dynamic_bitset.flip w 3 = some w1
        ∧ dynamic_bitset.flip w1 9 = some w2 ∧ hamming.decode w2 8 = some r
        ∧ r.is_error = true ∧ r.is_some = false :=
  ⟨rfl, by decide, double_flip_3_9_detected m0F rfl (by decide)⟩

/-! ## Zero handling -/

/-- C6: zero handling. For every bit sequence `z` with no set bit, of any length, and
every `messageLength`, `encode(z)` returns `z` unchanged and `decode(z, messageLength)`
is a success whose value is `z` unchanged, with the length of `z`. -/
theorem zero_handling (z : List Bool) (messageLength : Nat)
    (hz : dynamic_bitset.none z = true) :
    hamming.encode z = some z
      ∧ ∃ r, hamming.decode z messageLength = some r ∧ r.is_some = true
        ∧ r.is_error = false ∧ r.value_ = z ∧ r.value_.length = z.length := by
  refine ⟨?_, Maybe.some z, ?_, rfl, rfl, rfl, rfl⟩
  · unfold hamming.encode; rw [if_pos hz]
  · unfold hamming.decode; rw [if_pos hz]

/-- Witness of `zero_handling`: eleven zero bits decoded with message length 8. -/
theorem zero_handling_witness :
    dynamic_bitset.none (List.replicate 11 false) = true
      ∧ hamming.encode (List.replicate 11 false) = some (List.replicate 11 false)
      ∧ ∃ r, hamming.decode (List.replicate 11 false) 8 = some r ∧ r.is_some = true
        ∧ r.is_error = false ∧ r.value_ = List.replicate 11 false
        ∧ r.value_.length = (List.replicate 11 false).length :=
  ⟨by decide, zero_handling (List.replicate 11 false) 8 (by decide)⟩

/-! ## The codeword equations -/

theorem xorAll_tail (w : List Bool) (h : xorAll w = false) : w.getD 0 false = xorAll w.tail := by
  cases w with
  | nil => rfl
  | cons g rest =>
    simp only [xorAll, List.foldr_cons, List.tail_cons] at h ⊢
    have hg : (g :: rest).getD 0 false = g := rfl
    rw [hg]
    revert h
    cases g <;> cases List.foldr Bool.xor false rest <;> decide

/-- C7 (amended): `encode` produces a valid codeword. For every message `m` of length
`M` with a set bit whose codeword length `N = findMinK(M) + M + 1` is at most 127,
`w = encode(m)` has exactly `N` bits, every power-of-two position `i < N` satisfies
`w[i] = XOR of w[j]` over the `j` in `[0, N)` with `j != i` and `(i & j) != 0`, and
`w[0]` is the exclusive or of `w[1], ..., w[N-1]`, so the number of set bits of `w` is
even. -/
theorem encode_valid (M K : Nat) (m : List Bool) (hm : m.length = M)
    (hK : utils.hamming.findMinK M = some K) (hN : K + M + 1 ≤ 127)
    (hnz : dynamic_bitset.none m = false) :
    ∃ w, hamming.encode m = some w ∧ w.length = K + M + 1
      ∧ (∀ i, i < K + M + 1 → utils.bit.isPowerOfTwo i = true →
          w.getD i false = par (List.range (K + M + 1)) (fun j => inGroup i j && w.getD j false))
      ∧ w.getD 0 false = xorAll w.tail
      ∧ dynamic_bitset.count w % 2 = 0 := by
  refine ⟨codeword (K + M + 1) m, encode_consistent M K m hm hK hN hnz, length_codeword _ _,
    ?_, xorAll_tail _ (xorAll_codeword _ _ (by omega)), ?_⟩
  · intro i hi hp
    exact codeword_check _ _ i hi hp
  · rw [count_mod_two, xorAll_codeword _ _ (by omega)]
    rfl

/-- Witness of `encode_valid`: the byte `0b00001111`, whose codeword has 13 bits. -/
theorem encode_valid_witness :
    m0F.length = 8 ∧ utils.hamming.findMinK 8 = some 4 ∧ 4 + 8 + 1 ≤ 127
      ∧ dynamic_bitset.none m0F = false
      ∧ ∃ w, hamming.encode m0F = some w ∧ w.length = 4 + 8 + 1
        ∧ (∀ i, i < 4 + 8 + 1 → utils.bit.isPowerOfTwo i = true →
            w.getD i false = par (List.range (4 + 8 + 1)) (fun j => inGroup i j && w.getD j false))
        ∧ w.getD 0 false = xorAll w.tail
        ∧ dynamic_bitset.count w % 2 = 0 :=
  ⟨rfl, by decide, by decide, by decide,
    encode_valid 8 4 m0F rfl (by decide) (by decide) (by decide)⟩

/-- C7 (as stated) fails: for the message of 300 set bits `findMinK(300) = 9` and
`N = 310`, but `createHammingWord` receives `N` as a `uint8_t`, that is 54, and
`encode` then tests bit 55 of a word of 54 bits: no word of 310 bits is returned. -/
theorem encode_valid_fails_300 :
    ones300.length = 300 ∧ dynamic_bitset.none ones300 = false
      ∧ utils.hamming.findMinK 300 = some 9
      ∧ ¬ ∃ w, hamming.encode ones300 = some w ∧ w.length = 9 + 300 + 1 := by
  refine ⟨by decide, by decide, by decide, ?_⟩
  rintro ⟨w, hw, _⟩
  rw [encode_ones300] at hw
  exact absurd hw (by simp)

/-! ## The range test of the syndrome -/

/-- C8 (the code at the failing input): the 13-bit word `w0F_1_12`, decoded with
message length 8, has the syndrome 13, which equals its size; `decode` does not
return the error of the range test but a success. -/
theorem syndrome_equal_size_accepted :
    w0F_1_12.length = 13 ∧ dynamic_bitset.none w0F_1_12 = false
      ∧ hamming.syndrome w0F_1_12 8 = some 13
      ∧ hamming.decode w0F_1_12 8
          = some (Maybe.some [true, true, true, true, false, false, false, true])
      ∧ hamming.decode w0F_1_12 8 ≠ some (Maybe.error hamming.errIndex) := by
  refine ⟨by decide, by decide, by decide, by decide, by decide⟩

/-! ## `findMinK` -/

/-- C9 (amended): `findMinK` returns the least `K` with `n ≤ 2 ^ K - 1`, for every `n`
below `2 ^ 30`: it returns a `K` with `2 ^ K - 1 ≥ n`, either `K = 0` or
`2 ^ (K - 1) - 1 < n`, and no smaller `j` has `n ≤ 2 ^ j - 1`. -/
theorem findMinK_least (n : Nat) (hn : n < 2 ^ 30) :
    ∃ K, utils.hamming.findMinK n = some K ∧ 2 ^ K - 1 ≥ n ∧ (K = 0 ∨ 2 ^ (K - 1) - 1 < n)
      ∧ ∀ j, n ≤ 2 ^ j - 1 → K ≤ j := by
  obtain ⟨K, h1, h2, h3, h4⟩ := findMinK_spec n hn
  exact ⟨K, h1, h2, h3, h4⟩

/-- Witness of `findMinK_least`, with the three values of the claim. -/
theorem findMinK_least_witness :
    7 < 2 ^ 30
      ∧ (∃ K, utils.hamming.findMinK 7 = some K ∧ 2 ^ K - 1 ≥ 7 ∧ (K = 0 ∨ 2 ^ (K - 1) - 1 < 7)
          ∧ ∀ j, 7 ≤ 2 ^ j - 1 → K ≤ j)
      ∧ utils.hamming.findMinK 0 = some 0 ∧ utils.hamming.findMinK 7 = some 3
      ∧ utils.hamming.findMinK 8 = some 4 :=
  ⟨by decide, findMinK_least 7 (by decide), by decide, by decide, by decide⟩

/-- C9 (as stated) fails: at `n = 2 ^ 32` the loop of `findMinK` reaches `k = 31`,
where `1 << k` no longer fits the type `int`, and no `K` is returned. -/
theorem findMinK_fails_large :
    ¬ ∃ K, utils.hamming.findMinK 4294967296 = some K ∧ 2 ^ K - 1 ≥ 4294967296 := by
  have h : utils.hamming.findMinK 4294967296 = none := by decide
  rintro ⟨K, hK, _⟩
  rw [h] at hK
  exact absurd hK (by simp)

/-- C10 (amended): `findMinK` is non-decreasing below `2 ^ 30`: for all
`a ≤ b < 2 ^ 30` it returns on `a` and on `b`, and `findMinK(a) ≤ findMinK(b)`. -/
theorem findMinK_mono (a b : Nat) (hab : a ≤ b) (hb : b < 2 ^ 30) :
    ∃ Ka Kb, utils.hamming.findMinK a = some Ka ∧ utils.hamming.findMinK b = some Kb
      ∧ Ka ≤ Kb := by
  obtain ⟨Ka, ha1, _, _, ha4⟩ := findMinK_spec a (by omega)
  obtain ⟨Kb, hb1, hb2, _, _⟩ := findMinK_spec b hb
  exact ⟨Ka, Kb, ha1, hb1, ha4 Kb (by omega)⟩

/-- Witness of `findMinK_mono`: `findMinK(7) ≤ findMinK(8)`. -/
theorem findMinK_mono_witness :
    7 ≤ 8 ∧ 8 < 2 ^ 30
      ∧ ∃ Ka Kb, utils.hamming.findMinK 7 = some Ka ∧ utils.hamming.findMinK 8 = some Kb
        ∧ Ka ≤ Kb :=
  ⟨by decide, by decide, findMinK_mono 7 8 (by decide) (by decide)⟩

/-- C10 (as stated) fails: for `a = 8 ≤ b = 2 ^ 31` there is no pair of results to
compare, since `findMinK` returns nothing on `b`. -/
theorem findMinK_mono_fails_large :
    8 ≤ 2147483648
      ∧ ¬ ∃ Ka Kb, utils.hamming.findMinK 8 = some Ka
          ∧ utils.hamming.findMinK 2147483648 = some Kb ∧ Ka ≤ Kb := by
  have h : utils.hamming.findMinK 2147483648 = none := by decide
  refine ⟨by decide, ?_⟩
  rintro ⟨Ka, Kb, _, hKb, _⟩
  rw [h] at hKb
  exact absurd hKb (by simp)

/-! ## `findMinBytes` -/

/-- C11 (the code at the failing inputs): `findMinBytes` tests the remainder of the
quotient `N / 8`, not of `N`: for 8 bits it returns 2 bytes, for 5 bits it returns 0
bytes, which do not hold 5 bits; for 13 bits it returns 2. -/
theorem findMinBytes_not_ceil :
    utils.bit.findMinBytes 8 = 2 ∧ utils.bit.findMinBytes 5 = 0
      ∧ ¬ (utils.bit.findMinBytes 5 * 8 ≥ 5) ∧ utils.bit.findMinBytes 13 = 2 := by
  decide

/-! ## The layout -/

/-- C12 (the code at the failing inputs): for the message length 1, `findMinK` gives
`K = 1` and `N = 3`, the positions 1 and 2 are both powers of two, no position is
left for the message bit, and `encode` of the message `1` is the word `000`; for the
message length 5, `K = 3` and `N = 9`, with four check positions and four message
positions, and `decode` of the codeword reads outside the three slots of `extractC`.
In both cases `2 ^ K - 1 < M + K`. -/
theorem layout_counts_fail :
    utils.hamming.findMinK 1 = some 1 ∧ cpos (1 + 1 + 1) = [1, 2] ∧ mpos (1 + 1 + 1) = []
      ∧ ¬ (2 ^ 1 - 1 ≥ 1 + 1)
      ∧ hamming.encode [true] = some [false, false, false]
      ∧ utils.hamming.findMinK 5 = some 3 ∧ cpos (3 + 5 + 1) = [1, 2, 4, 8]
      ∧ mpos (3 + 5 + 1) = [3, 5, 6, 7] ∧ ¬ (2 ^ 3 - 1 ≥ 5 + 3)
      ∧ (hamming.encode [true, false, true, true, true] >>= fun w =>
          utils.hamming.extractC w 5) = none
      ∧ (hamming.encode [true, false, true, true, true] >>= fun w =>
          hamming.decode w 5) = none := by
  decide

/-! ## `isPowerOfTwo` -/

/-- C13: `isPowerOfTwo(x)` is true exactly when `x` is non-zero and has exactly one
set bit: for every 64-bit unsigned `x`, `isPowerOfTwo(x)` is true iff `x = 2 ^ k` for
some `k` in `[0, 64)`, iff `x != 0` and the set bits of `x` are exactly one position
`k`; and `isPowerOfTwo(0)` is false. -/
theorem isPowerOfTwo_correct (x : Nat) (hx : x < 2 ^ 64) :
    (utils.bit.isPowerOfTwo x = true ↔ ∃ k, k < 64 ∧ x = 2 ^ k)
      ∧ (utils.bit.isPowerOfTwo x = true ↔ x ≠ 0 ∧ ∃ k, ∀ i, x.testBit i = decide (k = i))
      ∧ utils.bit.isPowerOfTwo 0 = false := by
  refine ⟨?_, ?_, by decide⟩
  · rw [isPowerOfTwo_iff]
    constructor
    · rintro ⟨k, rfl⟩
      exact ⟨k, (Nat.pow_lt_pow_iff_right (by omega : 1 < 2)).1 hx, rfl⟩
    · rintro ⟨k, _, rfl⟩
      exact ⟨k, rfl⟩
  · rw [isPowerOfTwo_iff]
    constructor
    · rintro ⟨k, rfl⟩
      exact ⟨by positivity, k, fun i => Nat.testBit_two_pow⟩
    · rintro ⟨_, k, hk⟩
      refine ⟨k, Nat.eq_of_testBit_eq (fun i => ?_)⟩
      rw [hk i, Nat.testBit_two_pow]

/-- Witness of `isPowerOfTwo_correct`: `x = 4096`. -/
theorem isPowerOfTwo_correct_witness :
    4096 < 2 ^ 64
      ∧ (utils.bit.isPowerOfTwo 4096 = true ↔ ∃ k, k < 64 ∧ 4096 = 2 ^ k)
      ∧ (utils.bit.isPowerOfTwo 4096 = true
          ↔ 4096 ≠ 0 ∧ ∃ k, ∀ i, (4096 : Nat).testBit i = decide (k = i))
      ∧ utils.bit.isPowerOfTwo 0 = false :=
  ⟨by decide, isPowerOfTwo_correct 4096 (by decide)⟩

/-! ## `Maybe` -/

/-- C17 (the code at the failing input): `Maybe<T>::error("")` stores the empty
string, so `is_error()` is false and `is_some()` is true; with a non-empty string,
such as the messages of `decode`, `is_error()` is true and `is_some()` is false. -/
theorem maybe_error_empty :
    (Maybe.error "" : Maybe (List Bool)).is_error = false
      ∧ (Maybe.error "" : Maybe (List Bool)).is_some = true
      ∧ (Maybe.error hamming.errG : Maybe (List Bool)).is_error = true
      ∧ (Maybe.error hamming.errG : Maybe (List Bool)).is_some = false := by
  decide

/-! ## `concat` -/

theorem copyLoop (src : List Bool) (off : Nat) (A B : List Bool) (hA : A.length = off) :
    ∀ n, n ≤ B.length → n ≤ src.length →
    (List.range n).foldlM (fun (result : List Bool) i => do
        let v ← dynamic_bitset.test src i
        dynamic_bitset.assign result (i + off) v) (A ++ B)
      = some (A ++ src.take n ++ B.drop n) := by
  intro n
  induction n with
  | zero => intro _ _; simp
  | succ n ih =>
    intro hB hs
    rw [List.range_succ, List.foldlM_append, ih (by omega) (by omega), some_bind_eq]
    simp only [List.foldlM_cons, List.foldlM_nil]
    rw [test_eq_getD _ _ (by omega), some_bind_eq,
      assign_eq_set _ _ _ (by simp [List.length_take]; omega)]
    have hset : (A ++ List.take n src ++ List.drop n B).set (n + off) (src.getD n false)
        = A ++ List.take (n + 1) src ++ List.drop (n + 1) B := by
      rw [List.set_append_right _ _ (by simp [List.length_take]; omega)]
      have hidx : n + off - (A ++ List.take n src).length = 0 := by
        simp [List.length_take]; omega
      have htake : List.take (n + 1) src = List.take n src ++ [src.getD n false] := by
        rw [List.take_succ, List.getD_eq_getElem?_getD,
          List.getElem?_eq_getElem (by omega : n < src.length)]
        rfl
      rw [hidx, List.drop_eq_getElem_cons (by omega : n < B.length), List.set_cons_zero, htake]
      simp only [List.append_assoc, List.singleton_append]
    rw [hset]
    rfl

theorem concat_eq (a b : List Bool) (hnz : dynamic_bitset.none a = false) :
    utils.bit.concat a b = some (a ++ b) := by
  unfold utils.bit.concat
  rw [if_neg (by simp [hnz])]
  have h1 := copyLoop a 0 [] (List.replicate (a.length + b.length) false) rfl a.length
    (by simp) (Nat.le_refl _)
  have h1' : (List.range a.length).foldlM (fun (result : List Bool) i => do
        let v ← dynamic_bitset.test a i
        dynamic_bitset.assign result i v) (List.replicate (a.length + b.length) false)
      = some (a ++ List.replicate b.length false) := by
    rw [show List.replicate (a.length + b.length) false
        = [] ++ List.replicate (a.length + b.length) false from rfl]
    refine Eq.trans h1 ?_
    simp [List.drop_replicate]
  rw [h1', some_bind_eq]
  have h2 := copyLoop b a.length a (List.replicate b.length false) rfl b.length
    (by simp) (Nat.le_refl _)
  rw [h2]
  simp

/-- C14: `concat(a, b)`. For all bit sequences `a` and `b`: if `a` has no set bit
(empty or all zero) the result is `b` unchanged, of length `|b|`; otherwise the
result has length `|a| + |b|`, its bit `i` equals `a[i]` for `i < |a|` and its bit
`|a| + i` equals `b[i]` for `i < |b|`. -/
theorem concat_spec (a b : List Bool) :
    (dynamic_bitset.none a = true →
        ∃ r, utils.bit.concat a b = some r ∧ r = b ∧ r.length = b.length)
      ∧ (dynamic_bitset.none a = false →
          ∃ r, utils.bit.concat a b = some r ∧ r.length = a.length + b.length
            ∧ (∀ i, i < a.length → r.getD i false = a.getD i false)
            ∧ (∀ i, i < b.length → r.getD (a.length + i) false = b.getD i false)) := by
  constructor
  · intro h
    refine ⟨b, ?_, rfl, rfl⟩
    unfold utils.bit.concat
    rw [if_pos h]
  · intro h
    refine ⟨a ++ b, concat_eq a b h, by simp, ?_, ?_⟩
    · intro i hi
      simp [List.getD, List.getElem?_append_left hi]
    · intro i _
      simp [List.getD, List.getElem?_append_right (Nat.le_add_right a.length i)]

/-- Witness of `concat_spec`: an all-zero `a`, and `a = 10`, `b = 101` (bit 0 first
`0,1` and `1,0,1`). -/
theorem concat_spec_witness :
    (dynamic_bitset.none [false, false] = true
        ∧ ∃ r, utils.bit.concat [false, false] [true] = some r ∧ r = [true]
          ∧ r.length = [true].length)
      ∧ (dynamic_bitset.none [false, true] = false
        ∧ ∃ r, utils.bit.concat [false, true] [true, false, true] = some r
          ∧ r.length = [false, true].length + [true, false, true].length
          ∧ (∀ i, i < [false, true].length → r.getD i false = [false, true].getD i false)
          ∧ (∀ i, i < [true, false, true].length →
              r.getD ([false, true].length + i) false = [true, false, true].getD i false)) :=
  ⟨⟨by decide, (concat_spec [false, false] [true]).1 (by decide)⟩,
    ⟨by decide, (concat_spec [false, true] [true, false, true]).2 (by decide)⟩⟩

/-! ## The global parity test of `decode` -/

theorem length_correct (input w : List Bool) (s : Nat) (h : hamming.correct input s = some w) :
    w.length = input.length := by
  unfold hamming.correct at h
  by_cases hc : (decide (s > 0) && decide (s < input.length)) = true
  · rw [if_pos hc] at h
    have hlt : s < input.length := by
      simp only [Bool.and_eq_true, decide_eq_true_eq] at hc
      exact hc.2
    rw [flip_eq_set _ _ hlt] at h
    cases h
    simp
  · rw [if_neg hc] at h
    cases h
    rfl

theorem correct_some (input : List Bool) (s : Nat) :
    ∃ w, hamming.correct input s = some w := by
  unfold hamming.correct
  by_cases hc : (decide (s > 0) && decide (s < input.length)) = true
  · rw [if_pos hc]
    have hlt : s < input.length := by
      simp only [Bool.and_eq_true, decide_eq_true_eq] at hc
      exact hc.2
    exact ⟨_, flip_eq_set _ _ hlt⟩
  · rw [if_neg hc]
    exact ⟨_, rfl⟩

theorem length_pos_of_not_none (b : List Bool) (h : dynamic_bitset.none b = false) :
    0 < b.length := by
  cases b with
  | nil => exact absurd h (by decide)
  | cons x b => simp

theorem xorAll_eq_ne_tail (w : List Bool) (hw : 0 < w.length) :
    (xorAll w = true ↔ w.getD 0 false ≠ xorAll w.tail) := by
  cases w with
  | nil => simp at hw
  | cons g rest =>
    have hx : xorAll (g :: rest) = Bool.xor g (xorAll rest) := rfl
    have hg : (g :: rest).getD 0 false = g := rfl
    rw [hx, hg, List.tail_cons]
    cases g <;> cases xorAll rest <;> decide

theorem some_ne_errG (r : List Bool) :
    (Maybe.some r : Maybe (List Bool)) ≠ Maybe.error hamming.errG := by
  intro h
  have h1 : ("" : String) = hamming.errG := congrArg Maybe.error_ h
  exact absurd h1 (by decide)

/-- C16: the global parity check. For every input word with a set bit whose syndrome
`s` is computed and is not above the size of the word, let `w` be the word after the
correction step of `decode`; `decode` returns the error `G did not match` iff `w[0]`
differs from the exclusive or of `w[1], ..., w[len-1]`, which holds iff the number of
set bits of `w` is odd, and otherwise `decode` returns what `extractM(w, messageLength)`
returns, as a success. -/
theorem global_parity_check (input : List Bool) (messageLength s : Nat)
    (hnz : dynamic_bitset.none input = false)
    (hs : hamming.syndrome input messageLength = some s) (hle : s ≤ input.length) :
    ∃ w, hamming.correct input s = some w
      ∧ (w.getD 0 false ≠ xorAll w.tail ↔ dynamic_bitset.count w % 2 = 1)
      ∧ (hamming.decode input messageLength = some (Maybe.error hamming.errG)
          ↔ w.getD 0 false ≠ xorAll w.tail)
      ∧ (w.getD 0 false = xorAll w.tail →
          hamming.decode input messageLength
            = (utils.hamming.extractM w messageLength).map Maybe.some) := by
  obtain ⟨w, hw⟩ := correct_some input s
  have hlen : 0 < w.length := by
    rw [length_correct input w s hw]; exact length_pos_of_not_none input hnz
  have hdec := decode_eq input messageLength s w hnz hs hle hw hlen
  have hx := xorAll_eq_ne_tail w hlen
  refine ⟨w, hw, ?_, ?_, ?_⟩
  · rw [← hx, count_mod_two]
    cases xorAll w <;> decide
  · rw [← hx, hdec]
    cases hxw : xorAll w with
    | true => simp
    | false =>
      simp only [Bool.false_eq_true, if_false, iff_false]
      cases utils.hamming.extractM w messageLength with
      | none => simp
      | some r =>
        simp only [Option.some_bind, Option.some.injEq]
        exact some_ne_errG r
  · intro h
    have hf : xorAll w = false := by
      cases hxw : xorAll w with
      | false => rfl
      | true => exact absurd h (hx.1 hxw)
    rw [hdec, hf]
    cases utils.hamming.extractM w messageLength <;> rfl

/-- Witness of `global_parity_check`: the codeword of `0b00001111` with the bits 1
and 12 flipped, whose syndrome is 13. -/
theorem global_parity_check_witness :
    dynamic_bitset.none w0F_1_12 = false ∧ hamming.syndrome w0F_1_12 8 = some 13
      ∧ 13 ≤ w0F_1_12.length
      ∧ ∃ w, hamming.correct w0F_1_12 13 = some w
        ∧ (w.getD 0 false ≠ xorAll w.tail ↔ dynamic_bitset.count w % 2 = 1)
        ∧ (hamming.decode w0F_1_12 8 = some (Maybe.error hamming.errG)
            ↔ w.getD 0 false ≠ xorAll w.tail)
        ∧ (w.getD 0 false = xorAll w.tail →
            hamming.decode w0F_1_12 8 = (utils.hamming.extractM w 8).map Maybe.some) :=
  ⟨by decide, by decide, by decide,
    global_parity_check w0F_1_12 8 13 (by decide) (by decide) (by decide)⟩

/-! ## A flip of the global parity bit -/

theorem encode_last247 : hamming.encode last247 = none := by decide

/-- C18 (amended): a flip of the global parity bit alone is rejected. For every
message length `M` with a consistent layout whose codeword has `N ≤ 127` bits, and
every `M`-bit message `m` with a set bit, `decode` of `encode(m)` with only bit 0
flipped computes the syndrome 0, its correction step leaves the word as it is, and
it returns the error `G did not match`, not `m`. -/
theorem parity_flip_rejected (M K : Nat) (m : List Bool) (hm : m.length = M)
    (hK : utils.hamming.findMinK M = some K) (hc : K + M + 1 ≤ 2 ^ K)
    (hN : K + M + 1 ≤ 127) (hnz : dynamic_bitset.none m = false) :
    ∃ w w1, hamming.encode m = some w ∧ dynamic_bitset.flip w 0 = some w1
      ∧ hamming.syndrome w1 M = some 0 ∧ hamming.correct w1 0 = some w1
      ∧ hamming.decode w1 M = some (Maybe.error hamming.errG)
      ∧ (Maybe.error hamming.errG : Maybe (List Bool)).is_error = true
      ∧ hamming.decode w1 M ≠ some (Maybe.some m) := by
  subst hm
  have hl := length_codeword (K + m.length + 1) m
  have hl1 : (flipped (codeword (K + m.length + 1) m) 0).length = K + m.length + 1 := by
    rw [length_flipped, hl]
  have hsyn : hamming.syndrome (flipped (codeword (K + m.length + 1) m) 0) m.length = some 0 :=
    syndrome_flip m K 0 hK hc (by omega) (by omega)
  have hcorr : hamming.correct (flipped (codeword (K + m.length + 1) m) 0) 0
      = some (flipped (codeword (K + m.length + 1) m) 0) := by
    unfold hamming.correct
    rw [if_neg (by simp)]
  have hx : xorAll (flipped (codeword (K + m.length + 1) m) 0) = true := by
    rw [xorAll_flipped _ _ (by omega), xorAll_codeword _ _ (by omega)]
    rfl
  have hnone : dynamic_bitset.none (flipped (codeword (K + m.length + 1) m) 0) = false := by
    cases h : dynamic_bitset.none (flipped (codeword (K + m.length + 1) m) 0) with
    | false => rfl
    | true => rw [none_xorAll _ h] at hx; exact absurd hx (by simp)
  have hdec : hamming.decode (flipped (codeword (K + m.length + 1) m) 0) m.length
      = some (Maybe.error hamming.errG) := by
    rw [decode_eq _ _ 0 _ hnone hsyn (by omega) hcorr (by omega), hx]
    rfl
  refine ⟨codeword (K + m.length + 1) m, flipped (codeword (K + m.length + 1) m) 0,
    encode_consistent m.length K m rfl hK hN hnz, flip_eq_set _ _ (by omega), hsyn, hcorr,
    hdec, by decide, ?_⟩
  rw [hdec]
  intro h
  exact some_ne_errG m (Option.some.inj h).symm

/-- Witness of `parity_flip_rejected`: the byte `0b00001111`. -/
theorem parity_flip_rejected_witness :
    m0F.length = 8 ∧ utils.hamming.findMinK 8 = some 4 ∧ 4 + 8 + 1 ≤ 2 ^ 4 ∧ 4 + 8 + 1 ≤ 127
      ∧ dynamic_bitset.none m0F = false
      ∧ ∃ w w1, hamming.encode m0F = some w ∧ dynamic_bitset.flip w 0 = some w1
        ∧ hamming.syndrome w1 8 = some 0 ∧ hamming.correct w1 0 = some w1
        ∧ hamming.decode w1 8 = some (Maybe.error hamming.errG)
        ∧ (Maybe.error hamming.errG : Maybe (List Bool)).is_error = true
        ∧ hamming.decode w1 8 ≠ some (Maybe.some m0F) :=
  ⟨rfl, by decide, by decide, by decide, by decide,
    parity_flip_rejected 8 4 m0F rfl (by decide) (by decide) (by decide) (by decide)⟩

/-- C18 (as stated) fails: for the consistent message length 247 `encode` of a
message with a set bit returns no word, so there is no codeword whose bit 0 could be
flipped. -/
theorem parity_flip_fails_247 :
    last247.length = 247 ∧ utils.hamming.findMinK 247 = some 8 ∧ 8 + 247 + 1 ≤ 2 ^ 8
      ∧ dynamic_bitset.none last247 = false
      ∧ ¬ ∃ w w1, hamming.encode last247 = some w ∧ dynamic_bitset.flip w 0 = some w1
          ∧ hamming.decode w1 247 = some (Maybe.error hamming.errG) := by
  refine ⟨by decide, findMinK_247, by decide, by decide, ?_⟩
  rintro ⟨w, _, hw, _⟩
  rw [encode_last247] at hw
  exact absurd hw (by simp)

/-! ## Bounds of the accesses of `decode` -/

/-- C19 (amended): bounds safety of `decode`. An access out of range is the fault
`none` of the model, so a returned value means that every index was in range. For
every message length `M ≤ 255` (the range of the `uint8_t` parameter) with a
consistent layout and every input word of length exactly `N`, valid or corrupted:
`extractC` returns its `K` slots, the loop of the recomputed check bits and the
exclusive or return a syndrome below `2 ^ K`, the correction step returns a word of
`N` bits, `extractM` of that word returns its `M` slots, and `decode` returns a
result. -/
theorem decode_in_range (M K : Nat) (w : List Bool) (hM : M ≤ 255)
    (hK : utils.hamming.findMinK M = some K) (hc : K + M + 1 ≤ 2 ^ K)
    (hlen : w.length = K + M + 1) :
    ∃ c s w1 v r, utils.hamming.extractC w M = some c ∧ c.length = K
      ∧ hamming.syndrome w M = some s ∧ s < 2 ^ K
      ∧ hamming.correct w s = some w1 ∧ w1.length = K + M + 1
      ∧ utils.hamming.extractM w1 M = some v ∧ v.length = M
      ∧ hamming.decode w M = some r := by
  have hcl : (cpos (K + M + 1)).length = K := by
    rw [length_cpos, clog_of_consistent M K hK hc]
  have hml : (mpos (K + M + 1)).length = M := length_mpos M K hK hc
  have hsyn := syndrome_eq w M K hM hK hc hlen
  have hv := value_lt (List.map (fun c => chk (K + M + 1) c w) (List.range K))
  simp only [List.length_map, List.length_range] at hv
  obtain ⟨w1, hw1⟩ := correct_some w
    (dynamic_bitset.value (List.map (fun c => chk (K + M + 1) c w) (List.range K)))
  have hl1 : w1.length = K + M + 1 := by rw [length_correct _ _ _ hw1, hlen]
  have hext := extractM_eq w1 M hM (by rw [hl1]; exact hml)
  have hdec : ∃ r, hamming.decode w M = some r := by
    cases hnz : dynamic_bitset.none w with
    | true =>
      refine ⟨Maybe.some w, ?_⟩
      unfold hamming.decode; rw [if_pos hnz]
    | false =>
      by_cases hgt : dynamic_bitset.value
          (List.map (fun c => chk (K + M + 1) c w) (List.range K)) > w.length
      · refine ⟨Maybe.error hamming.errIndex, ?_⟩
        unfold hamming.decode
        rw [if_neg (by simp [hnz]), hsyn, some_bind_eq, if_pos hgt]
        rfl
      · rw [decode_eq w M _ w1 hnz hsyn (by omega) hw1 (by omega), hext]
        cases xorAll w1
        · exact ⟨_, rfl⟩
        · exact ⟨_, rfl⟩
  obtain ⟨r, hr⟩ := hdec
  refine ⟨_, _, w1, _, r, extractC_eq w M K hM hK (by rw [hlen]; exact hcl), ?_, hsyn, hv,
    hw1, hl1, hext, ?_, hr⟩
  · rw [List.length_map, hlen, hcl]
  · rw [List.length_map, hl1, hml]

/-- Witness of `decode_in_range`: the 13-bit word `w0F_1_12` and `M = 8`. -/
theorem decode_in_range_witness :
    8 ≤ 255 ∧ utils.hamming.findMinK 8 = some 4 ∧ 4 + 8 + 1 ≤ 2 ^ 4
      ∧ w0F_1_12.length = 4 + 8 + 1
      ∧ ∃ c s w1 v r, utils.hamming.extractC w0F_1_12 8 = some c ∧ c.length = 4
        ∧ hamming.syndrome w0F_1_12 8 = some s ∧ s < 2 ^ 4
        ∧ hamming.correct w0F_1_12 s = some w1 ∧ w1.length = 4 + 8 + 1
        ∧ utils.hamming.extractM w1 8 = some v ∧ v.length = 8
        ∧ hamming.decode w0F_1_12 8 = some r :=
  ⟨by decide, by decide, by decide, by decide,
    decode_in_range 8 4 w0F_1_12 (by decide) (by decide) (by decide) (by decide)⟩

/-- C19 (as stated) fails: the message length 300 has a consistent layout
(`findMinK(300) = 9`, `N = 310 ≤ 2 ^ 9`), but `decode` receives it as a `uint8_t`,
that is 44, with `K = 6`: on a word of 310 bits `extractC` writes the slot 6 of its 6
slots, out of range, and `decode` returns nothing. -/
theorem decode_in_range_fails_300 :
    utils.hamming.findMinK 300 = some 9 ∧ 9 + 300 + 1 ≤ 2 ^ 9 ∧ word310.length = 9 + 300 + 1
      ∧ utils.hamming.extractC word310 300 = none
      ∧ hamming.decode word310 300 = none := by
  decide

/-! ## The exact behaviour on double flips, message length 8 -/

theorem pairs13_iff : ∀ p, p < 13 → ∀ q, q < 13 →
    ((1 ≤ p ∧ 1 ≤ q ∧ p ^^^ q = 13) ↔ ((p, q) ∈ pairs13 ∨ (q, p) ∈ pairs13)) := by
  intro p hp q hq
  interval_cases p <;> interval_cases q <;> decide

theorem xor13_in_mpos : ∀ p, p < 13 → ∀ q, q < 13 → p ^^^ q = 13 →
    p ∈ mpos 13 ∨ q ∈ mpos 13 := by
  intro p hp q hq
  interval_cases p <;> interval_cases q <;> decide

theorem getD_flipped (b : List Bool) (p j : Nat) (hp : p < b.length) :
    (flipped b p).getD j false = Bool.xor (b.getD j false) (decide (j = p)) :=
  getD_flip b p j hp

theorem testBit_zero_of_lt (s K : Nat) (hs : s < 2 ^ K)
    (h : ∀ c, c < K → s.testBit c = false) : s = 0 := by
  have hmap : List.map (fun c => s.testBit c) (List.range K)
      = List.map (fun c => (0 : Nat).testBit c) (List.range K) := by
    apply List.map_congr_left
    intro c hc
    rw [h c (List.mem_range.mp hc)]
    simp
  have h1 := value_map_testBit s K
  rw [hmap, value_map_testBit, Nat.mod_eq_of_lt hs] at h1
  simpa using h1.symm

/-- The syndrome of the codeword of an 8-bit message with the bits `p` and `q`
flipped is `p XOR q`, and the flipped word has a set bit. -/
theorem double_flip_syndrome (m : List Bool) (p q : Nat) (hp : p < 13) (hq : q < 13)
    (hpq : p ≠ q) :
    hamming.syndrome (flipped (flipped (codeword 13 m) p) q) 8 = some (p ^^^ q)
      ∧ dynamic_bitset.none (flipped (flipped (codeword 13 m) p) q) = false := by
  have hK : utils.hamming.findMinK 8 = some 4 := findMinK_eight
  have hl : (codeword 13 m).length = 13 := length_codeword 13 m
  have hl1 : (flipped (codeword 13 m) p).length = 13 := by rw [length_flipped, hl]
  have hl2 : (flipped (flipped (codeword 13 m) p) q).length = 13 := by
    rw [length_flipped, hl1]
  have hchk : ∀ c, c < 4 →
      chk 13 c (flipped (flipped (codeword 13 m) p) q) = (p ^^^ q).testBit c := by
    intro c hc4
    rw [chk_flipped 13 c q _ hq hl1, chk_flipped 13 c p _ hp hl, chk_codeword 8 4 c m hK hc4,
      Nat.testBit_xor]
    simp
  have hs16 : p ^^^ q < 2 ^ 4 :=
    Nat.xor_lt_two_pow (by omega : p < 2 ^ 4) (by omega : q < 2 ^ 4)
  refine ⟨syndrome_of_chk _ 8 4 (p ^^^ q) (by decide) hK (by decide) hl2 hs16 hchk, ?_⟩
  cases h : dynamic_bitset.none (flipped (flipped (codeword 13 m) p) q) with
  | false => rfl
  | true =>
    have hz : p ^^^ q = 0 := testBit_zero_of_lt _ 4 hs16 (fun c hc => by
      rw [← hchk c hc, chk_none _ _ _ h])
    exact absurd (Nat.xor_eq_zero.mp hz) hpq

/-- C20: the exact double-error behaviour for message length 8. For every 8-bit
message `m` with a set bit and every two distinct positions `p`, `q` in `[0, 13)`,
`decode` of `encode(m)` with exactly the bits `p` and `q` flipped returns a success
iff `p ≥ 1`, `q ≥ 1` and `p XOR q = 13`, which are the five pairs `{1,12}`, `{4,9}`,
`{5,8}`, `{6,11}`, `{7,10}`; in that case the returned message differs from `m`, and
for every other pair `decode` returns an error. -/
theorem double_flip_exact (m : List Bool) (p q : Nat) (hm : m.length = 8)
    (hnz : dynamic_bitset.none m = false) (hp : p < 13) (hq : q < 13) (hpq : p ≠ q) :
    ∃ w w1 w2 r, hamming.encode m = some w ∧ dynamic_bitset.flip w p = some w1
      ∧ dynamic_bitset.flip w1 q = some w2 ∧ hamming.decode w2 8 = some r
      ∧ (r.is_some = true ↔ (1 ≤ p ∧ 1 ≤ q ∧ p ^^^ q = 13))
      ∧ ((1 ≤ p ∧ 1 ≤ q ∧ p ^^^ q = 13) ↔ ((p, q) ∈ pairs13 ∨ (q, p) ∈ pairs13))
      ∧ (r.is_some = true → r.value_ ≠ m)
      ∧ (r.is_some = false → r.is_error = true) := by
  have hK : utils.hamming.findMinK 8 = some 4 := findMinK_eight
  have hl : (codeword 13 m).length = 13 := length_codeword 13 m
  have hl1 : (flipped (codeword 13 m) p).length = 13 := by rw [length_flipped, hl]
  have hl2 : (flipped (flipped (codeword 13 m) p) q).length = 13 := by
    rw [length_flipped, hl1]
  obtain ⟨hsyn, hnone⟩ := double_flip_syndrome m p q hp hq hpq
  have hx2 : xorAll (flipped (flipped (codeword 13 m) p) q) = false := by
    rw [xorAll_flipped _ _ (by omega), xorAll_flipped _ _ (by omega),
      xorAll_codeword 13 m (by decide)]
    rfl
  have hs0 : p ^^^ q ≠ 0 := Nat.xor_ne_zero.mpr hpq
  have hdec : ∃ r, hamming.decode (flipped (flipped (codeword 13 m) p) q) 8 = some r
      ∧ (r.is_some = true ↔ (1 ≤ p ∧ 1 ≤ q ∧ p ^^^ q = 13))
      ∧ (r.is_some = true → r.value_ ≠ m)
      ∧ (r.is_some = false → r.is_error = true) := by
    rcases Nat.lt_trichotomy (p ^^^ q) 13 with hlt | heq | hgt
    · -- the syndrome is a position of the word: a third bit is flipped
      have hcorr : hamming.correct (flipped (flipped (codeword 13 m) p) q) (p ^^^ q)
          = some (flipped (flipped (flipped (codeword 13 m) p) q) (p ^^^ q)) := by
        unfold hamming.correct
        rw [if_pos (by simp [hl2]; omega)]
        exact flip_eq_set _ _ (by omega)
      have hx3 : xorAll (flipped (flipped (flipped (codeword 13 m) p) q) (p ^^^ q)) = true := by
        rw [xorAll_flipped _ _ (by omega), hx2]
        rfl
      refine ⟨Maybe.error hamming.errG, ?_, ?_, ?_, fun _ => by decide⟩
      · rw [decode_eq _ 8 (p ^^^ q) _ hnone hsyn (by omega) hcorr
          (by rw [length_flipped, hl2]; decide), hx3]
        rfl
      · constructor
        · intro h; exact absurd h (by decide)
        · rintro ⟨_, _, h⟩; omega
      · intro h; exact absurd h (by decide)
    · -- the syndrome equals the size of the word: accepted without correction
      have hcorr : hamming.correct (flipped (flipped (codeword 13 m) p) q) (p ^^^ q)
          = some (flipped (flipped (codeword 13 m) p) q) := by
        unfold hamming.correct
        rw [if_neg (by simp [hl2]; omega)]
      have hext := extractM_eq (flipped (flipped (codeword 13 m) p) q) 8 (by decide)
        (by rw [hl2]; decide)
      rw [hl2] at hext
      refine ⟨Maybe.some ((mpos 13).map
        (fun i => (flipped (flipped (codeword 13 m) p) q).getD i false)), ?_, ?_, ?_,
        fun h => absurd (show true = false from h) (by decide)⟩
      · rw [decode_eq _ 8 (p ^^^ q) _ hnone hsyn (by omega) hcorr (by omega), hx2, hext]
        rfl
      · constructor
        · intro _
          refine ⟨?_, ?_, heq⟩
          · rcases Nat.eq_zero_or_pos p with h0 | h0
            · subst h0; rw [Nat.zero_xor] at heq; omega
            · exact h0
          · rcases Nat.eq_zero_or_pos q with h0 | h0
            · subst h0; rw [Nat.xor_zero] at heq; omega
            · exact h0
        · intro _; rfl
      · intro _ hval
        have hm13 : (mpos 13).map (fun j => (codeword 13 m).getD j false) = m := by
          have h1 := map_codeword 13 m (by rw [hm]; decide)
          rw [show (mpos 13).length = 8 from by decide, ← hm, List.take_length] at h1
          exact h1
        have hval' : (mpos 13).map
              (fun i => (flipped (flipped (codeword 13 m) p) q).getD i false)
            = (mpos 13).map (fun j => (codeword 13 m).getD j false) := hval.trans hm13.symm
        rw [List.map_inj_left] at hval'
        have hflip : ∀ j, j ∈ mpos 13 → Bool.xor (decide (j = p)) (decide (j = q)) = false := by
          intro j hj
          have h2 := hval' j hj
          rw [getD_flipped _ q j (by omega), getD_flipped _ p j (by omega)] at h2
          revert h2
          cases (codeword 13 m).getD j false <;> cases decide (j = p) <;>
            cases decide (j = q) <;> decide
        rcases xor13_in_mpos p hp q hq heq with hpm | hqm
        · have h3 := hflip p hpm
          have hne : ¬ p = q := hpq
          simp [hne] at h3
        · have h3 := hflip q hqm
          have hne : ¬ q = p := fun e => hpq e.symm
          simp [hne] at h3
    · -- the syndrome is above the size of the word: the first error
      refine ⟨Maybe.error hamming.errIndex, ?_, ?_, ?_, fun _ => by decide⟩
      · unfold hamming.decode
        rw [if_neg (by simp [hnone]), hsyn, some_bind_eq, if_pos (by rw [hl2]; exact hgt)]
        rfl
      · constructor
        · intro h; exact absurd h (by decide)
        · rintro ⟨_, _, h⟩; omega
      · intro h; exact absurd h (by decide)
  obtain ⟨r, hr, h1, h2, h3⟩ := hdec
  exact ⟨codeword 13 m, flipped (codeword 13 m) p, flipped (flipped (codeword 13 m) p) q, r,
    encode_consistent 8 4 m hm hK (by decide) hnz, flip_eq_set _ _ (by omega),
    flip_eq_set _ _ (by omega), hr, h1, pairs13_iff p hp q hq, h2, h3⟩

/-- Witness of `double_flip_exact`: the byte `0b00001111` and the positions 4 and 9. -/
theorem double_flip_exact_witness :
    m0F.length = 8 ∧ dynamic_bitset.none m0F = false ∧ 4 < 13 ∧ 9 < 13 ∧ 4 ≠ 9
      ∧ ∃ w w1 w2 r, hamming.encode m0F = some w ∧ dynamic_bitset.flip w 4 = some w1
        ∧ dynamic_bitset.flip w1 9 = some w2 ∧ hamming.decode w2 8 = some r
        ∧ (r.is_some = true ↔ (1 ≤ 4 ∧ 1 ≤ 9 ∧ 4 ^^^ 9 = 13))
        ∧ ((1 ≤ 4 ∧ 1 ≤ 9 ∧ 4 ^^^ 9 = 13) ↔ ((4, 9) ∈ pairs13 ∨ (9, 4) ∈ pairs13))
        ∧ (r.is_some = true → r.value_ ≠ m0F)
        ∧ (r.is_some = false → r.is_error = true) :=
  ⟨rfl, by decide, by decide, by decide, by decide,
    double_flip_exact m0F 4 9 rfl (by decide) (by decide) (by decide) (by decide)⟩

/-! ## The order of the check positions in `encode` -/

theorem foldlM_inv {σ α : Type} (P : σ → Prop) (f : σ → α → Option σ)
    (hf : ∀ s a s', P s → f s a = some s' → P s') :
    ∀ (L : List α) (s s' : σ), P s → L.foldlM f s = some s' → P s' := by
  intro L
  induction L with
  | nil =>
    intro s s' hs h
    simp only [List.foldlM_nil] at h
    cases h
    exact hs
  | cons a L ih =>
    intro s s' hs h
    simp only [List.foldlM_cons] at h
    cases hfa : f s a with
    | none => rw [hfa] at h; exact absurd h (by simp)
    | some s1 =>
      rw [hfa, some_bind_eq] at h
      exact ih s1 s' (hf s a s1 hs hfa) h

theorem length_of_assign (b b' : List Bool) (i : Nat) (v : Bool)
    (h : dynamic_bitset.assign b i v = some b') : b'.length = b.length := by
  unfold dynamic_bitset.assign at h
  by_cases hi : i < b.length
  · rw [if_pos hi] at h; cases h; simp
  · rw [if_neg hi] at h; exact absurd h (by simp)

theorem length_of_flip (b b' : List Bool) (i : Nat)
    (h : dynamic_bitset.flip b i = some b') : b'.length = b.length := by
  unfold dynamic_bitset.flip at h
  cases hb : b[i]? with
  | none => rw [hb] at h; exact absurd h (by simp)
  | some v => rw [hb] at h; cases h; simp

theorem createHammingWord_some (value bits : List Bool) (N : Nat)
    (h : hamming.createHammingWord value N = some bits) :
    N % 256 ≤ 127 ∧ bits.length = N % 256 := by
  unfold hamming.createHammingWord at h
  by_cases hN : 127 < N % 256
  · rw [if_pos hN] at h; exact absurd h (by simp)
  · rw [if_neg hN] at h
    refine ⟨by omega, ?_⟩
    cases hfold : (List.range (N % 256)).foldlM (fun (s : List Bool × Nat) i =>
        if utils.hamming.isNotC i then do
          let v ← dynamic_bitset.test value s.2
          let bits ← dynamic_bitset.assign s.1 i v
          pure (bits, s.2 + 1)
        else pure s) (List.replicate (N % 256) false, 0) with
    | none => rw [hfold] at h; exact absurd h (by simp)
    | some r =>
      rw [hfold, some_bind_eq] at h
      cases h
      refine foldlM_inv (fun (s : List Bool × Nat) => s.1.length = N % 256) _ ?_ _ _ _
        (by simp) hfold
      intro s a s' hs hstep
      by_cases hc : utils.hamming.isNotC a = true
      · rw [if_pos hc] at hstep
        cases ht : dynamic_bitset.test value s.2 with
        | none => rw [ht] at hstep; exact absurd hstep (by simp)
        | some v =>
          rw [ht, some_bind_eq] at hstep
          cases ha : dynamic_bitset.assign s.1 a v with
          | none => rw [ha] at hstep; exact absurd hstep (by simp)
          | some b' =>
            rw [ha, some_bind_eq] at hstep
            cases hstep
            exact (length_of_assign _ _ _ _ ha).trans hs
      · rw [if_neg hc] at hstep
        cases hstep
        exact hs

theorem list_ext_getD (l1 l2 : List Bool) (hlen : l1.length = l2.length)
    (h : ∀ j, l1.getD j false = l2.getD j false) : l1 = l2 := by
  apply List.ext_getElem?
  intro n
  by_cases hn : n < l1.length
  · have h1 := h n
    rw [List.getD_eq_getElem _ _ hn, List.getD_eq_getElem _ _ (by omega : n < l2.length)] at h1
    rw [List.getElem?_eq_getElem hn, List.getElem?_eq_getElem (by omega : n < l2.length), h1]
  · rw [List.getElem?_eq_none (by omega), List.getElem?_eq_none (by omega)]

/-- The check-bit loop gives the same word for every order of the same check
positions. -/
theorem fill_perm (N : Nat) (L L' : List Nat) (b : List Bool) (hperm : L.Perm L')
    (hnd : L.Nodup) (hp : ∀ i ∈ L, utils.bit.isPowerOfTwo i = true)
    (hb : ∀ i ∈ L, i < b.length) : fill N L b = fill N L' b := by
  apply list_ext_getD
  · rw [length_fill, length_fill]
  · intro j
    by_cases hj : j ∈ L
    · rw [fill_getD_of_mem N L hnd hp b hb j hj,
        fill_getD_of_mem N L' (hperm.nodup hnd) (fun i hi => hp i (hperm.mem_iff.2 hi)) b
          (fun i hi => hb i (hperm.mem_iff.2 hi)) j (hperm.mem_iff.1 hj)]
    · rw [fill_getD_of_not_mem N L j hj, fill_getD_of_not_mem N L' j
        (fun h => hj (hperm.mem_iff.2 h))]

/-- The inner loop of `encode` keeps the size of the word. -/
theorem length_encode_inner (N i : Nat) (bits bits' : List Bool)
    (h : (List.range N).foldlM (fun (bits : List Bool) j =>
        if i != j && (i &&& j) != 0 then do
          let t ← dynamic_bitset.test bits j
          if t then dynamic_bitset.flip bits i else pure bits
        else pure bits) bits = some bits') : bits'.length = bits.length := by
  refine foldlM_inv (fun (s : List Bool) => s.length = bits.length) _ ?_ _ _ _ rfl h
  intro s j s' hs hstep
  by_cases hc : (i != j && (i &&& j) != 0) = true
  · rw [if_pos hc] at hstep
    cases ht : dynamic_bitset.test s j with
    | none => rw [ht] at hstep; exact absurd hstep (by simp)
    | some t =>
      rw [ht, some_bind_eq] at hstep
      cases t
      · simp only [Bool.false_eq_true, if_false] at hstep
        cases hstep
        exact hs
      · simp only [if_true] at hstep
        exact (length_of_flip _ _ _ hstep).trans hs
  · rw [if_neg hc] at hstep
    cases hstep
    exact hs

/-- The inner loop of `encode` for the check position 1 reads position 129: on a word
of at most 127 bits with `N ≥ 130` it returns nothing. -/
theorem encode_inner_none (N : Nat) (bits : List Bool) (hb : bits.length ≤ 127)
    (hN : 130 ≤ N) :
    (List.range N).foldlM (fun (bits : List Bool) j =>
        if 1 != j && (1 &&& j) != 0 then do
          let t ← dynamic_bitset.test bits j
          if t then dynamic_bitset.flip bits 1 else pure bits
        else pure bits) bits = none := by
  obtain ⟨n, rfl⟩ : ∃ n, N = 129 + (n + 1) := ⟨N - 130, by omega⟩
  rw [List.range_add, List.foldlM_append]
  cases h : (List.range 129).foldlM (fun (bits : List Bool) j =>
        if 1 != j && (1 &&& j) != 0 then do
          let t ← dynamic_bitset.test bits j
          if t then dynamic_bitset.flip bits 1 else pure bits
        else pure bits) bits with
  | none => rfl
  | some acc =>
    have hl := length_encode_inner 129 1 bits acc h
    rw [some_bind_eq, List.range_succ_eq_map, List.map_cons, List.foldlM_cons]
    have ht : dynamic_bitset.test acc (129 + 0) = none := by
      unfold dynamic_bitset.test
      exact List.getElem?_eq_none (by omega)
    rw [if_pos (by decide), ht]
    rfl

/-- The outer loop of `encode`, started on a word of at most 127 bits with
`N ≥ 256`, returns nothing. -/
theorem encode_outer_none (N : Nat) (bits : List Bool) (hb : bits.length ≤ 127)
    (hN : 256 ≤ N) :
    (List.range N).foldlM (fun (bits : List Bool) i =>
        if !utils.bit.isPowerOfTwo i then pure bits
        else (List.range N).foldlM (fun (bits : List Bool) j =>
            if i != j && (i &&& j) != 0 then do
              let t ← dynamic_bitset.test bits j
              if t then dynamic_bitset.flip bits i else pure bits
            else pure bits) bits) bits = none := by
  have hr : List.range N = 0 :: 1 :: (List.range (N - 2)).map (2 + ·) := by
    have h2 : N = 2 + (N - 2) := by omega
    rw [h2, List.range_add]
    simp only [Nat.add_sub_cancel_left]
    rfl
  have hin := encode_inner_none N bits hb (by omega)
  generalize hg : (fun (bits : List Bool) i =>
        if !utils.bit.isPowerOfTwo i then pure bits
        else (List.range N).foldlM (fun (bits : List Bool) j =>
            if i != j && (i &&& j) != 0 then do
              let t ← dynamic_bitset.test bits j
              if t then dynamic_bitset.flip bits i else pure bits
            else pure bits) bits) = step
  have h0 : step bits 0 = some bits := by rw [← hg]; rfl
  have h1 : step bits 1 = none := by
    rw [← hg]
    simp only [show utils.bit.isPowerOfTwo 1 = true from by decide, Bool.not_true,
      Bool.false_eq_true, if_false]
    exact hin
  rw [hr, List.foldlM_cons, h0, some_bind_eq, List.foldlM_cons, h1]
  rfl

/-- On a word of `N` bits the outer loop of `encode` and the loop over any order of
the check positions below `N` return the same word. -/
theorem order_outer_eq (N : Nat) (order : List Nat) (bits : List Bool)
    (hlen : bits.length = N) (hperm : order.Perm (cpos N)) :
    order.foldlM (fun (bits : List Bool) i =>
        (List.range N).foldlM (fun (bits : List Bool) j =>
            if i != j && (i &&& j) != 0 then do
              let t ← dynamic_bitset.test bits j
              if t then dynamic_bitset.flip bits i else pure bits
            else pure bits) bits) bits
      = (List.range N).foldlM (fun (bits : List Bool) i =>
        if !utils.bit.isPowerOfTwo i then pure bits
        else (List.range N).foldlM (fun (bits : List Bool) j =>
            if i != j && (i &&& j) != 0 then do
              let t ← dynamic_bitset.test bits j
              if t then dynamic_bitset.flip bits i else pure bits
            else pure bits) bits) bits := by
  have hc := encode_outer N (cpos N) (fun i hi => ((mem_cpos _ _).1 hi).1) bits hlen
  have ho := encode_outer N order (fun i hi => ((mem_cpos _ _).1 (hperm.mem_iff.1 hi)).1)
    bits hlen
  simp only [cpos] at hc
  rw [foldlM_guard_not, hc, ho]
  have hnd : (cpos N).Nodup := (List.nodup_range N).filter _
  have hf := fill_perm N (cpos N) order bits hperm.symm hnd
    (fun i hi => ((mem_cpos _ _).1 hi).2)
    (fun i hi => by rw [hlen]; exact ((mem_cpos _ _).1 hi).1)
  simp only [cpos] at hf
  rw [hf]

/-- Whenever `encode` and the computation in another order of the check positions
both return a word, it is the same word. -/
theorem order_independent (m : List Bool) (order : List Nat) (K : Nat) (w w1 : List Bool)
    (hK : utils.hamming.findMinK m.length = some K)
    (hperm : order.Perm (cpos ((K + m.length + 1) % 65536)))
    (he : hamming.encode m = some w) (ho : encodeInOrder order m = some w1) : w1 = w := by
  unfold hamming.encode at he
  unfold encodeInOrder at ho
  cases hnz : dynamic_bitset.none m with
  | true =>
    rw [if_pos hnz] at he ho
    cases he; cases ho; rfl
  | false =>
    rw [if_neg (by simp [hnz]), hK, some_bind_eq] at he ho
    dsimp only at he ho
    cases hcw : hamming.createHammingWord m ((K + m.length + 1) % 65536) with
    | none => rw [hcw] at he; exact absurd he (by simp)
    | some bits =>
      rw [hcw, some_bind_eq] at he ho
      obtain ⟨h127, hbl⟩ := createHammingWord_some _ _ _ hcw
      by_cases hwrap : 256 ≤ (K + m.length + 1) % 65536
      · rw [encode_outer_none _ bits (by omega) hwrap] at he
        exact absurd he (by simp)
      · have hbl' : bits.length = (K + m.length + 1) % 65536 := by
          rw [hbl]; exact Nat.mod_eq_of_lt (by omega)
        rw [order_outer_eq _ order bits hbl' hperm] at ho
        rw [he] at ho
        exact (Option.some.inj ho).symm

/-- C15 (amended): no order dependency of the check-bit computation in `encode`. The
parity group of a check position contains no other check position, so for every
message `m` of a length `M` whose codeword length `N = findMinK(M) + M + 1` is at most
127, processing the same check positions in any other order, descending for one,
yields the same codeword as `encode`. -/
theorem encode_order_independent (M K : Nat) (m : List Bool) (order : List Nat)
    (hm : m.length = M) (hK : utils.hamming.findMinK M = some K) (hN : K + M + 1 ≤ 127)
    (hperm : order.Perm (cpos (K + M + 1))) :
    ∃ w, hamming.encode m = some w ∧ encodeInOrder order m = some w
      ∧ encodeInOrder (cpos (K + M + 1)).reverse m = some w := by
  subst hm
  have hmod : (K + m.length + 1) % 65536 = K + m.length + 1 := Nat.mod_eq_of_lt (by omega)
  have key : ∀ order' : List Nat, order'.Perm (cpos (K + m.length + 1)) →
      encodeInOrder order' m = hamming.encode m := by
    intro order' hperm'
    unfold hamming.encode encodeInOrder
    cases hnz : dynamic_bitset.none m with
    | true => rfl
    | false =>
      rw [if_neg (by simp), if_neg (by simp), hK, some_bind_eq, some_bind_eq]
      dsimp only
      rw [hmod, createHammingWord_eq m _ hN (length_mpos_le m.length K hK), some_bind_eq,
        some_bind_eq, order_outer_eq _ order' _ (by simp [length_place]) hperm']
  have hsome : ∃ w, hamming.encode m = some w := by
    cases hnz : dynamic_bitset.none m with
    | true => exact ⟨m, by unfold hamming.encode; rw [if_pos hnz]⟩
    | false => exact ⟨_, encode_consistent m.length K m rfl hK hN hnz⟩
  obtain ⟨w, hw⟩ := hsome
  exact ⟨w, hw, by rw [key order hperm, hw],
    by rw [key _ (List.reverse_perm _), hw]⟩

/-- Witness of `encode_order_independent`: the byte `0b00001111` with the check
positions in the order 4, 1, 8, 2; the descending order is 8, 4, 2, 1. -/
theorem encode_order_independent_witness :
    m0F.length = 8 ∧ utils.hamming.findMinK 8 = some 4 ∧ 4 + 8 + 1 ≤ 127
      ∧ [4, 1, 8, 2].Perm (cpos (4 + 8 + 1)) ∧ (cpos (4 + 8 + 1)).reverse = [8, 4, 2, 1]
      ∧ ∃ w, hamming.encode m0F = some w ∧ encodeInOrder [4, 1, 8, 2] m0F = some w
        ∧ encodeInOrder (cpos (4 + 8 + 1)).reverse m0F = some w :=
  ⟨rfl, by decide, by decide, by decide, by decide,
    encode_order_independent 8 4 m0F [4, 1, 8, 2] rfl (by decide) (by decide) (by decide)⟩

/-- C15 (as stated) fails: there is no message, of any length, and no order of its
check positions for which `encode` and the computation in that order return
different codewords. -/
theorem order_dependency_refuted :
    ¬ ∃ (m : List Bool) (order : List Nat) (K : Nat) (w w1 : List Bool),
        utils.hamming.findMinK m.length = some K
          ∧ order.Perm (cpos ((K + m.length + 1) % 65536))
          ∧ hamming.encode m = some w ∧ encodeInOrder order m = some w1 ∧ w1 ≠ w := by
  rintro ⟨m, order, K, w, w1, hK, hperm, he, ho, hne⟩
  exact hne (order_independent m order K w w1 hK hperm he ho)
